import Mathlib

/-!
AES-GCM sealing and opening (`occlude/crypto/gcm.h`).

A shallow embedding of `loadu64`, `load`, `store`, `AesGcmEncrypt` and
`AesGcmDecrypt`, and theorems about them.

Conventions of the embedding.

* A byte is a `Nat`; a byte buffer (`std::vector<uint8_t>`) is a `List Nat`.
  Every byte the code writes is reduced `% 256`.
* A `uint64_t` / `size_t` is a `Nat`; reduction `% 2 ^ 64` is written where the
  code can wrap: the clamp `buffer.size() - offset`, the block counts
  `(asize + 15) / 16` computed from decoded sizes, the sealed-buffer size and the
  bit lengths `size << 3`. Loop indices bounded by a buffer size are not reduced.
* `__m128i` is the pair of its 64-bit lanes `data[0]`, `data[1]`.
* In `loadu64` the byte `buffer[offset + n]` is a `uint8_t`, so the shift
  `buffer[offset + n] << (8 * (7 - n))` is the shift of an `int`: a 32-bit shift
  whose result is sign-extended when it is ORed into the `uint64_t` (`shiftedByte`).
  `store` shifts a `uint64_t` and is a 64-bit shift.
* The block cipher, the Galois hash and the `+ 1` / `++` of the 128-bit type come
  from headers that are not part of the translated file; they are parameters
  (`Primitives`).
* The local `__m128i hash;` is declared without an initial value in both
  functions; the value it starts with is the parameter `hash0`.
* A `std::span` is the list of the bytes it views together with the bytes found
  behind its end (`past`), because `loadu64` can index a span at or after
  `size()`.
* `throw` is `Except.error`.
* What a loop does at each iteration without keeping it (the counter block it
  passes to `AesEncrypt`, the block it folds, the offsets it reads and writes) is
  listed by a trace function that follows the recursion of the loop
  (`sealDataTrace`, `openAadReads`, `openDataTrace`); `loadu64Indices` lists the
  positions at which `loadu64` and `store` subscript their buffer.
-/

namespace Occlude.Crypto

/-- The 128-bit value type `__m128i`, as its two 64-bit lanes `data[0]`, `data[1]`. -/
structure M128 where
  d0 : Nat
  d1 : Nat
deriving DecidableEq

/-- The value-initialised block `{}`. -/
def M128.zero : M128 := ⟨0, 0⟩

/-- The operator `^` on two 128-bit values. -/
def M128.xor (a b : M128) : M128 := ⟨a.d0 ^^^ b.d0, a.d1 ^^^ b.d1⟩

/-- A `std::span<uint8_t>`: the `size()` bytes it views, and the byte that an
index `i ≥ size()` finds behind the view. -/
structure Span where
  data : List Nat
  past : Nat → Nat

/-- The member `size()`. -/
def Span.size (s : Span) : Nat := s.data.length

/-- The subscript `buffer[i]` of a span. -/
def Span.index (s : Span) (i : Nat) : Nat :=
  if i < s.size then s.data.getD i 0 else s.past i

/-- The clamp `std::min(buffer.size() - offset, 8)` of `loadu64` and `store`, with
the `size_t` subtraction wrapping modulo `2 ^ 64`. -/
def clampBytes (size offset : Nat) : Nat :=
  min ((size + 2 ^ 64 - offset) % 2 ^ 64) 8

/-- The conversion of an `int` to `uint64_t`: the 32-bit pattern `x % 2 ^ 32` is
sign-extended, so a pattern with bit 31 set gets bits 32 to 63 set as well. -/
def signExtend32 (x : Nat) : Nat :=
  if x % 2 ^ 32 < 2 ^ 31 then x % 2 ^ 32 else x % 2 ^ 32 + (2 ^ 64 - 2 ^ 32)

/-- The operand `(buffer[offset + n] << (8 * (7 - n)))` of line 13, as the
`uint64_t` that `|=` receives. The byte is a `uint8_t`, which the shift promotes
to the 32-bit `int`, so the shift is a 32-bit one and not a 64-bit one: the count
`8 * (7 - n)` is taken modulo 32 (the counts 56, 48, 40 and 32 of the bytes
`n = 0, 1, 2, 3` are not below the width of `int`; the language leaves them
undefined, and the 32-bit shift instruction uses the low five bits of the count),
the result keeps its low 32 bits, and the conversion to `uint64_t` sign-extends
it. The bytes `n` and `n + 4` are therefore shifted to the same position. -/
def shiftedByte (byte n : Nat) : Nat :=
  signExtend32 (byte <<< ((8 * (7 - n)) % 32))

/-- The function `loadu64` (gcm.h lines 9-15): the loop ORs the shifted bytes
`buffer[offset + n]` into `value`. The source ends without a `return`; the
accumulated `value` is taken as the result. -/
def loadu64 (buffer : Span) (offset : Nat) : Nat :=
  let bytes := clampBytes buffer.size offset
  (List.range bytes).foldl
    (fun value n => value ||| shiftedByte (buffer.index (offset + n)) n) 0

/-- The function `load` (gcm.h lines 17-19). -/
def load (buffer : Span) (offset : Nat) : M128 :=
  ⟨loadu64 buffer offset, loadu64 buffer (offset + 8)⟩

/-- The overload `store(buffer, offset, uint64_t)` (gcm.h lines 21-26). The
assignment to a `uint8_t` keeps the low 8 bits. An assignment at an index outside
the vector is not represented: `List.set` leaves the list unchanged there. -/
def store64 (buffer : List Nat) (offset : Nat) (data : Nat) : List Nat :=
  let bytes := clampBytes buffer.length offset
  (List.range bytes).foldl
    (fun buf n => buf.set (offset + n) ((data >>> (8 * (7 - n))) % 256)) buffer

/-- The overload `store(buffer, offset, __m128i)` (gcm.h lines 28-31). -/
def store (buffer : List Nat) (offset : Nat) (data : M128) : List Nat :=
  store64 (store64 buffer offset data.d0) (offset + 8) data.d1

/-- The member `std::vector::resize(n)`: truncate, or append zero bytes. -/
def resize (v : List Nat) (n : Nat) : List Nat :=
  v.take n ++ List.replicate (n - v.length) 0

/-- The collaborators declared in `occlude/cipher/aes.h`, `occlude/cipher/ghash.h`
and the arithmetic of the 128-bit type: `AesEncrypt(schedule, block)`,
`ghash(block, accumulator, H)`, and `inc`, the `+ 1` / `++` on a counter block. -/
structure Primitives (AesKeySchedule : Type) where
  AesEncrypt : AesKeySchedule → M128 → M128
  ghash : M128 → M128 → M128 → M128
  inc : M128 → M128

section Seal

variable {AesKeySchedule : Type}

/-- The hash subkey `H = AesEncrypt(schedule, {})` (lines 34 and 71). -/
def hashSubkey (prim : Primitives AesKeySchedule) (schedule : AesKeySchedule) : M128 :=
  prim.AesEncrypt schedule M128.zero

/-- The counter `load(iv, 12) + 1` (lines 36 and 74). -/
def initialCounter (prim : Primitives AesKeySchedule) (iv : Span) : M128 :=
  prim.inc (load iv 12)

/-- The expression `(n + 15) & ~15` on `size_t`. -/
def alignUp (n : Nat) : Nat :=
  ((n + 15) % 2 ^ 64) &&& 0xFFFFFFFFFFFFFFF0

/-- The argument of `buffer.resize` (line 41). -/
def sealedSize (plaintextSize additionalSize : Nat) : Nat :=
  (alignUp plaintextSize + alignUp additionalSize + 32) % 2 ^ 64

/-- The loop of lines 42-46 over the associated data, from the state
`(i, offset, hash, buffer)`; it returns `(offset, hash, buffer)`. The first
argument bounds the number of iterations. -/
def sealAadLoop (prim : Primitives AesKeySchedule) (H : M128) (additional : Span) :
    Nat → Nat → Nat → M128 → List Nat → Nat × M128 × List Nat
  | 0, _, offset, hash, buffer => (offset, hash, buffer)
  | fuel + 1, i, offset, hash, buffer =>
    if i < additional.size then
      let data := load additional i
      let hash := prim.ghash data hash H
      let buffer := store buffer offset data
      sealAadLoop prim H additional fuel (i + 16) (offset + 16) hash buffer
    else (offset, hash, buffer)

/-- The inner loop of lines 56-58: `buffer[offset + bytes] = 0` for
`bytes`, ..., 15. -/
def zeroTail (buffer : List Nat) (offset bytes : Nat) : List Nat :=
  (List.range' bytes (16 - bytes)).foldl (fun buf b => buf.set (offset + b) 0) buffer

/-- The block of lines 52-60, which clears the unused tail of the last block. -/
def trimLast (buffer : List Nat) (plaintextSize i offset : Nat) : List Nat :=
  if i / 16 = plaintextSize / 16 then
    let bytes := plaintextSize % 16
    if bytes ≠ 0 then zeroTail buffer offset bytes else buffer
  else buffer

/-- The loop of lines 47-61 over the plaintext, from the state
`(i, offset, ctr, hash, buffer)`; it returns `(offset, ctr, hash, buffer)`. The
first argument bounds the number of iterations. -/
def sealDataLoop (prim : Primitives AesKeySchedule) (schedule : AesKeySchedule) (H : M128)
    (plaintext : Span) :
    Nat → Nat → Nat → M128 → M128 → List Nat → Nat × M128 × M128 × List Nat
  | 0, _, offset, ctr, hash, buffer => (offset, ctr, hash, buffer)
  | fuel + 1, i, offset, ctr, hash, buffer =>
    if i < plaintext.size then
      let data := load plaintext i
      let ctr := prim.inc ctr
      let data := data.xor (prim.AesEncrypt schedule ctr)
      let hash := prim.ghash data hash H
      let buffer := store buffer offset data
      let buffer := trimLast buffer plaintext.size i offset
      sealDataLoop prim schedule H plaintext fuel (i + 16) (offset + 16) ctr hash buffer
    else (offset, ctr, hash, buffer)

/-- The state `(offset, ctr, hash, buffer)` of `AesGcmEncrypt` after line 61: the
buffer is sized, then the two loops run. Each loop runs at most once per byte of
its input, so the bound given to it is never reached. -/
def sealBody (prim : Primitives AesKeySchedule) (hash0 : M128) (schedule : AesKeySchedule)
    (plaintext additional iv : Span) : Nat × M128 × M128 × List Nat :=
  let H := hashSubkey prim schedule
  let ctr := initialCounter prim iv
  let buffer := resize [] (sealedSize plaintext.size additional.size)
  let (offset, hash, buffer) :=
    sealAadLoop prim H additional additional.size 0 0 hash0 buffer
  sealDataLoop prim schedule H plaintext plaintext.size 0 offset ctr hash buffer

/-- The value `sizes` of line 62: the two bit lengths, masked with
`AesEncrypt(schedule, final_ctr)`. -/
def sealSizes (prim : Primitives AesKeySchedule) (schedule : AesKeySchedule)
    (plaintext additional iv : Span) : M128 :=
  (M128.mk ((additional.size <<< 3) % 2 ^ 64) ((plaintext.size <<< 3) % 2 ^ 64)).xor
    (prim.AesEncrypt schedule (initialCounter prim iv))

/-- The value of `hash` after line 63, which line 66 stores as the tag. -/
def sealTag (prim : Primitives AesKeySchedule) (hash0 : M128) (schedule : AesKeySchedule)
    (plaintext additional iv : Span) : M128 :=
  prim.ghash (sealSizes prim schedule plaintext additional iv)
    (sealBody prim hash0 schedule plaintext additional iv).2.2.1
    (hashSubkey prim schedule)

/-- The function `AesGcmEncrypt` (gcm.h lines 33-68). -/
def AesGcmEncrypt (prim : Primitives AesKeySchedule) (hash0 : M128)
    (schedule : AesKeySchedule) (plaintext additional iv : Span) :
    Except String (List Nat) :=
  if iv.size ≠ 12 then Except.error "Not doing this"
  else
    let body := sealBody prim hash0 schedule plaintext additional iv
    let offset := body.1
    let buffer := body.2.2.2
    let sizes := sealSizes prim schedule plaintext additional iv
    let hash := sealTag prim hash0 schedule plaintext additional iv
    let buffer := store buffer offset sizes
    let offset := offset + 16
    let buffer := store buffer offset hash
    Except.ok buffer

end Seal

section Open

variable {AesKeySchedule : Type}

/-- The condition of line 73, on which `AesGcmDecrypt` returns `{{}, {}}`. -/
def formatRejected (buffer : Span) : Prop :=
  buffer.size < 48 ∨ buffer.size % 16 ≠ 0

instance (buffer : Span) : Decidable (formatRejected buffer) :=
  inferInstanceAs (Decidable (buffer.size < 48 ∨ buffer.size % 16 ≠ 0))

/-- The pair `[asize, psize]` of line 76: the length block, unmasked with
`AesEncrypt(schedule, ctr)` at the initial counter. -/
def openSizes (prim : Primitives AesKeySchedule) (schedule : AesKeySchedule)
    (buffer iv : Span) : M128 :=
  (load buffer (buffer.size - 32)).xor (prim.AesEncrypt schedule (initialCounter prim iv))

/-- The block count `(size + 15) / 16` of line 77, on `uint64_t`. -/
def blockCount (size : Nat) : Nat :=
  ((size + 15) % 2 ^ 64) / 16

/-- The condition of lines 81-83, on which `AesGcmDecrypt` returns `{{}, {}}`. -/
def sizesRejected (asize psize bufferSize : Nat) : Prop :=
  asize > 0x10000000000 ∨ psize > 0x10000000000 ∨
    (blockCount asize + blockCount psize + 2) % 2 ^ 64 ≠ bufferSize / 16

instance (asize psize bufferSize : Nat) : Decidable (sizesRejected asize psize bufferSize) :=
  inferInstanceAs (Decidable (asize > 0x10000000000 ∨ psize > 0x10000000000 ∨
    (blockCount asize + blockCount psize + 2) % 2 ^ 64 ≠ bufferSize / 16))

/-- The loop of lines 87-90 over the associated-data region, from the state
`(offset, hash)`; it returns `(offset, hash)`. The first argument bounds the
number of iterations. -/
def openAadLoop (prim : Primitives AesKeySchedule) (H : M128) (buffer : Span) (asize : Nat) :
    Nat → Nat → M128 → Nat × M128
  | 0, offset, hash => (offset, hash)
  | fuel + 1, offset, hash =>
    if offset < asize then
      let data := load buffer offset
      let hash := prim.ghash data hash H
      openAadLoop prim H buffer asize fuel (offset + 16) hash
    else (offset, hash)

/-- The loop of lines 91-96 over the ciphertext region, from the state
`(i, offset, ctr, hash, plaintext)`; it returns `(offset, ctr, hash, plaintext)`.
The first argument bounds the number of iterations. -/
def openDataLoop (prim : Primitives AesKeySchedule) (schedule : AesKeySchedule) (H : M128)
    (buffer : Span) (psize : Nat) :
    Nat → Nat → Nat → M128 → M128 → List Nat → Nat × M128 × M128 × List Nat
  | 0, _, offset, ctr, hash, plaintext => (offset, ctr, hash, plaintext)
  | fuel + 1, i, offset, ctr, hash, plaintext =>
    if i < psize then
      let data := load buffer offset
      let hash := prim.ghash data hash H
      let ctr := prim.inc ctr
      let data := data.xor (prim.AesEncrypt schedule ctr)
      let plaintext := store plaintext i data
      openDataLoop prim schedule H buffer psize fuel (i + 16) (offset + 16) ctr hash plaintext
    else (offset, ctr, hash, plaintext)

/-- The state `(offset, ctr, hash, plaintext)` of `AesGcmDecrypt` after line 96,
reached when the checks of lines 73 and 81-83 have passed. The counter has been
advanced once by the `ctr++` of line 76. Each loop runs at most once per byte
of its size, so the bound given to it is never reached. -/
def openBody (prim : Primitives AesKeySchedule) (hash0 : M128) (schedule : AesKeySchedule)
    (buffer iv : Span) : Nat × M128 × M128 × List Nat :=
  let H := hashSubkey prim schedule
  let sizes := openSizes prim schedule buffer iv
  let ctr := prim.inc (initialCounter prim iv)
  let asize := sizes.d0
  let psize := sizes.d1
  let pblocks := blockCount psize
  let plaintext := resize [] (pblocks * 16)
  let (offset, hash) := openAadLoop prim H buffer asize asize 0 hash0
  openDataLoop prim schedule H buffer psize psize 0 offset ctr hash plaintext

/-- The value of `hash` after line 98, which line 99 compares with the tag. -/
def openTag (prim : Primitives AesKeySchedule) (hash0 : M128) (schedule : AesKeySchedule)
    (buffer iv : Span) : M128 :=
  prim.ghash (load buffer (buffer.size - 32))
    (openBody prim hash0 schedule buffer iv).2.2.1 (hashSubkey prim schedule)

/-- The condition of line 99, on which `AesGcmDecrypt` returns `{{}, {}}`. -/
def tagRejected (prim : Primitives AesKeySchedule) (hash0 : M128) (schedule : AesKeySchedule)
    (buffer iv : Span) : Prop :=
  load buffer (buffer.size - 16) ≠ openTag prim hash0 schedule buffer iv

instance (prim : Primitives AesKeySchedule) (hash0 : M128) (schedule : AesKeySchedule)
    (buffer iv : Span) : Decidable (tagRejected prim hash0 schedule buffer iv) :=
  inferInstanceAs (Decidable (load buffer (buffer.size - 16) ≠ openTag prim hash0 schedule buffer iv))

/-- The bytes of the view `std::span(buffer.data(), buffer.data() + asize)`. -/
def viewFront (buffer : Span) (asize : Nat) : List Nat :=
  (List.range asize).map buffer.index

/-- The function `AesGcmDecrypt` (gcm.h lines 70-101). The result is the pair of
the plaintext vector and the bytes of the associated-data view; `{{}, {}}` is
`([], [])`. -/
def AesGcmDecrypt (prim : Primitives AesKeySchedule) (hash0 : M128)
    (schedule : AesKeySchedule) (buffer iv : Span) :
    Except String (List Nat × List Nat) :=
  if iv.size ≠ 12 then Except.error "Not doing this"
  else if formatRejected buffer then Except.ok ([], [])
  else
    let sizes := openSizes prim schedule buffer iv
    let asize := sizes.d0
    let psize := sizes.d1
    if sizesRejected asize psize buffer.size then Except.ok ([], [])
    else
      let plaintext := (openBody prim hash0 schedule buffer iv).2.2.2
      let plaintext := resize plaintext psize
      if tagRejected prim hash0 schedule buffer iv then Except.ok ([], [])
      else Except.ok (plaintext, viewFront buffer asize)

/-- The blob passes every check of `AesGcmDecrypt`: lines 73, 81-83 and 99. -/
def Accepted (prim : Primitives AesKeySchedule) (hash0 : M128) (schedule : AesKeySchedule)
    (buffer iv : Span) : Prop :=
  ¬ formatRejected buffer ∧
  ¬ sizesRejected (openSizes prim schedule buffer iv).d0 (openSizes prim schedule buffer iv).d1
      buffer.size ∧
  ¬ tagRejected prim hash0 schedule buffer iv

instance (prim : Primitives AesKeySchedule) (hash0 : M128) (schedule : AesKeySchedule)
    (buffer iv : Span) : Decidable (Accepted prim hash0 schedule buffer iv) :=
  inferInstanceAs (Decidable (¬ formatRejected buffer ∧
    ¬ sizesRejected (openSizes prim schedule buffer iv).d0
        (openSizes prim schedule buffer iv).d1 buffer.size ∧
    ¬ tagRejected prim hash0 schedule buffer iv))

end Open

section Instance

/-- Modelled from the spec: the `+ 1` / `++` of the 128-bit type, whose definition
is in a header outside the translated file. The spec has the counter block
incremented by one as a 128-bit value: the block is read as the number
`d0 * 2 ^ 64 + d1` and incremented modulo `2 ^ 128`. -/
def inc128 (c : M128) : M128 :=
  if c.d1 + 1 < 2 ^ 64 then ⟨c.d0, c.d1 + 1⟩ else ⟨(c.d0 + 1) % 2 ^ 64, 0⟩

/-- A small instance of the collaborators, on which the functions can be
evaluated: the cipher XORs a constant below `2 ^ 31` into each lane of the block,
the hash XORs block, accumulator and subkey and swaps the lanes. -/
def samplePrimitives : Primitives Unit where
  AesEncrypt := fun _ b =>
    ⟨(b.d0 ^^^ 0x1B2C3D4E) % 2 ^ 64, (b.d1 ^^^ 0x0A1B2C3D) % 2 ^ 64⟩
  ghash := fun block acc H => ⟨block.d1 ^^^ acc.d1 ^^^ H.d1, block.d0 ^^^ acc.d0 ^^^ H.d0⟩
  inc := inc128

/-- A second instance, whose cipher XORs constants that fill the 64 bits of each
lane. -/
def widePrimitives : Primitives Unit where
  AesEncrypt := fun _ b =>
    ⟨(b.d0 ^^^ 0x0123456789ABCDEF) % 2 ^ 64, (b.d1 ^^^ 0xFEDCBA9876543210) % 2 ^ 64⟩
  ghash := fun block acc H => ⟨block.d1 ^^^ acc.d1 ^^^ H.d1, block.d0 ^^^ acc.d0 ^^^ H.d0⟩
  inc := inc128

/-- A span over the given bytes with zero bytes behind it. -/
def spanOf (bytes : List Nat) : Span := ⟨bytes, fun _ => 0⟩

end Instance

section Vocabulary

variable {AesKeySchedule : Type}

/-- The eight bytes of a 64-bit value, most significant byte first. -/
def bytes64 (x : Nat) : List Nat :=
  (List.range 8).map (fun n => (x >>> (8 * (7 - n))) % 256)

/-- The sixteen bytes of a 128-bit value: lane 0 then lane 1, each most
significant byte first. -/
def blockBytes (v : M128) : List Nat :=
  bytes64 v.d0 ++ bytes64 v.d1

/-- Every element of the list is a byte value. -/
def ByteList (l : List Nat) : Prop :=
  ∀ x ∈ l, x < 256

instance (l : List Nat) : Decidable (ByteList l) :=
  inferInstanceAs (Decidable (∀ x ∈ l, x < 256))

/-- The least multiple of 16 that is at least `n`. -/
def roundUp16 (n : Nat) : Nat :=
  16 * ((n + 15) / 16)

/-- The list `b2` is `b1` with bit `k` of the byte at index `i` inverted. -/
def FlipAt (b1 b2 : List Nat) (i k : Nat) : Prop :=
  i < b1.length ∧ k < 8 ∧ b2 = b1.set i (b1.getD i 0 ^^^ 2 ^ k)

/-- The index of the other byte that `loadu64` shifts to the position of the byte at
`i`, in a buffer whose lanes start at the multiples of 8: four bytes further in
the first half of a lane, four bytes back in the second half. -/
def overlapIndex (i : Nat) : Nat :=
  if i % 8 < 4 then i + 4 else i - 4

/-- The list `b2` differs from `b1` in exactly one bit. -/
def OneBitFlip (b1 b2 : List Nat) : Prop :=
  ∃ i k, FlipAt b1 b2 i k

/-- The blocks `load(buffer, offset)`, `load(buffer, offset + 16)`, ... : `n` of
them. -/
def blocksFrom (buffer : Span) : Nat → Nat → List M128
  | _, 0 => []
  | offset, n + 1 => load buffer offset :: blocksFrom buffer (offset + 16) n

/-- The accumulator after folding the blocks in order, `hash = ghash(block, hash, H)`
for each. -/
def foldHash (prim : Primitives AesKeySchedule) (H : M128) (hash : M128)
    (blocks : List M128) : M128 :=
  blocks.foldl (fun h block => prim.ghash block h H) hash

/-- The Galois hash is injective in the block for a fixed accumulator, and in the
accumulator for a fixed block, at the subkey `H`. -/
def GhashInjective (prim : Primitives AesKeySchedule) (H : M128) : Prop :=
  (∀ acc b1 b2, prim.ghash b1 acc H = prim.ghash b2 acc H → b1 = b2) ∧
  (∀ block a1 a2, prim.ghash block a1 H = prim.ghash block a2 H → a1 = a2)

end Vocabulary

section Samples

/-- A nonce of twelve zero bytes. -/
def sampleNonce : Span := spanOf (List.replicate 12 0)

/-- A 64-byte blob that `AesGcmDecrypt` accepts under `samplePrimitives`,
`sampleNonce` and a zero initial accumulator: a 16-byte associated-data region,
a 16-byte ciphertext region, the length block for `asize = 5`, `psize = 3`, and
the matching tag. -/
def sampleBlob : List Nat :=
  [10, 20, 30, 40, 50, 0, 0, 0, 0, 0, 0, 0, 0, 0, 0, 0,
   1, 2, 3, 4, 5, 6, 7, 8, 9, 10, 11, 12, 13, 14, 15, 16,
   0, 0, 0, 0, 27, 44, 61, 75, 0, 0, 0, 0, 10, 27, 44, 63,
   0, 0, 0, 0, 20, 49, 22, 125, 0, 0, 0, 0, 38, 45, 0, 66]

/-- A 48-byte blob whose length block decodes, under `samplePrimitives` and
`sampleNonce`, to `asize = 2 ^ 64 - 1` and `psize = 16`. -/
def wrapBlob : List Nat :=
  [1, 2, 3, 4, 5, 6, 7, 8, 9, 10, 11, 12, 13, 14, 15, 16,
   0, 0, 0, 0, 228, 211, 194, 177, 0, 0, 0, 0, 10, 27, 44, 44,
   0, 0, 0, 0, 0, 0, 0, 0, 0, 0, 0, 0, 0, 0, 0, 0]

/-- The plaintext of sixteen bytes `0x41`. -/
def samplePlaintext : Span := spanOf (List.replicate 16 0x41)

/-- The empty input. -/
def emptyInput : Span := spanOf []

/-- The blob `sampleBlob` with bit 1 of the byte at index 0 inverted: the byte
`10` becomes `8`. The byte at index 4, which `loadu64` shifts to the same
position, is `50` and has bit 1 set. -/
def flippedBlob : List Nat :=
  sampleBlob.set 0 (sampleBlob.getD 0 0 ^^^ 2 ^ 1)

/-- The blob `sampleBlob` with the last byte of its tag replaced. -/
def wrongTagBlob : List Nat :=
  sampleBlob.set 63 0

/-- A blob of 47 bytes. -/
def shortBlob : List Nat :=
  List.replicate 47 7

end Samples

section Traces

variable {AesKeySchedule : Type}

/-- The indices `offset + n` at which the loop of `loadu64` (and of the 64-bit
`store`) subscripts a buffer of the given size. -/
def loadu64Indices (size offset : Nat) : List Nat :=
  (List.range (clampBytes size offset)).map (fun n => offset + n)

/-- The indices at which `load` (and the 128-bit `store`) subscripts a buffer of
the given size: those of the lane at `offset`, then those of the lane at
`offset + 8`. -/
def loadIndices (size offset : Nat) : List Nat :=
  loadu64Indices size offset ++ loadu64Indices size (offset + 8)

/-- One entry per iteration of the loop of lines 47-61, from the state `(i, ctr)`:
the counter block passed to `AesEncrypt` at line 49 and the block folded into
the accumulator at line 50. -/
def sealDataTrace (prim : Primitives AesKeySchedule) (schedule : AesKeySchedule)
    (plaintext : Span) : Nat → Nat → M128 → List (M128 × M128)
  | 0, _, _ => []
  | fuel + 1, i, ctr =>
    if i < plaintext.size then
      let data := load plaintext i
      let ctr := prim.inc ctr
      let data := data.xor (prim.AesEncrypt schedule ctr)
      (ctr, data) :: sealDataTrace prim schedule plaintext fuel (i + 16) ctr
    else []

/-- The counter blocks that `AesGcmEncrypt` passes to `AesEncrypt` in its data
pass, in order. -/
def sealCounters (prim : Primitives AesKeySchedule) (schedule : AesKeySchedule)
    (plaintext iv : Span) : List M128 :=
  (sealDataTrace prim schedule plaintext plaintext.size 0 (initialCounter prim iv)).map
    Prod.fst

/-- The blocks that `AesGcmEncrypt` folds into the accumulator in its data pass,
in order. -/
def sealFolded (prim : Primitives AesKeySchedule) (schedule : AesKeySchedule)
    (plaintext iv : Span) : List M128 :=
  (sealDataTrace prim schedule plaintext plaintext.size 0 (initialCounter prim iv)).map
    Prod.snd

/-- The offsets at which the loop of lines 87-90 calls `load(buffer, offset)`, from
the state `offset`. -/
def openAadReads (asize : Nat) : Nat → Nat → List Nat
  | 0, _ => []
  | fuel + 1, offset =>
    if offset < asize then offset :: openAadReads asize fuel (offset + 16) else []

/-- One entry per iteration of the loop of lines 91-96, from the state
`(i, offset, ctr)`: the offset of `load(buffer, offset)`, the counter block passed
to `AesEncrypt` at line 94 and the index `i` of `store(plaintext, i, data)`. -/
def openDataTrace (prim : Primitives AesKeySchedule) (psize : Nat) :
    Nat → Nat → Nat → M128 → List (Nat × M128 × Nat)
  | 0, _, _, _ => []
  | fuel + 1, i, offset, ctr =>
    if i < psize then
      let ctr := prim.inc ctr
      (offset, ctr, i) :: openDataTrace prim psize fuel (i + 16) (offset + 16) ctr
    else []

/-- The trace of the data pass of `AesGcmDecrypt` on a blob: the loop starts at the
offset where the associated-data loop stopped (an offset that does not depend on
the accumulator), with the counter advanced once by the `ctr++` of line 76. -/
def openTrace (prim : Primitives AesKeySchedule) (schedule : AesKeySchedule)
    (buffer iv : Span) : List (Nat × M128 × Nat) :=
  let sizes := openSizes prim schedule buffer iv
  let start := (openAadLoop prim (hashSubkey prim schedule) buffer sizes.d0 sizes.d0 0
    M128.zero).1
  openDataTrace prim sizes.d1 sizes.d1 0 start (prim.inc (initialCounter prim iv))

/-- The counter blocks that `AesGcmDecrypt` passes to `AesEncrypt` in its data
pass, in order. -/
def openCounters (prim : Primitives AesKeySchedule) (schedule : AesKeySchedule)
    (buffer iv : Span) : List M128 :=
  (openTrace prim schedule buffer iv).map (fun e => e.2.1)

/-- A nonce of twelve bytes `0x01`. -/
def otherNonce : Span := spanOf (List.replicate 12 1)

/-- A plaintext of seventeen bytes `0x41`. -/
def longPlaintext : Span := spanOf (List.replicate 17 0x41)

/-- A one-byte buffer with bytes `0xFF` behind it. -/
def shortBuffer : Span := ⟨[7], fun _ => 0xFF⟩

/-- The blob that `AesGcmEncrypt` returns for `samplePlaintext`, no associated data,
`sampleNonce`, `samplePrimitives` and a zero initial accumulator. -/
def sealedSample : List Nat :=
  [0, 0, 0, 0, 90, 109, 124, 15, 0, 0, 0, 0, 75, 90, 109, 126,
   0, 0, 0, 0, 27, 44, 61, 78, 0, 0, 0, 0, 10, 27, 44, 188,
   0, 0, 0, 0, 65, 65, 65, 192, 0, 0, 0, 0, 65, 65, 65, 67]

/-- The blob that `AesGcmEncrypt` returns for `longPlaintext`, no associated data,
`sampleNonce`, `samplePrimitives` and a zero initial accumulator. -/
def sealedLong : List Nat :=
  [0, 0, 0, 0, 90, 109, 124, 15, 0, 0, 0, 0, 75, 90, 109, 126,
   0, 0, 0, 0, 0, 0, 0, 0, 0, 0, 0, 0, 0, 0, 0, 0,
   0, 0, 0, 0, 27, 44, 61, 78, 0, 0, 0, 0, 10, 27, 44, 180,
   0, 0, 0, 0, 0, 65, 65, 202, 0, 0, 0, 0, 65, 65, 65, 66]

end Traces

section Codec

theorem or_eq_add_of_dvd (x y i : Nat) (hx : 2 ^ i ∣ x) (hy : y < 2 ^ i) : x ||| y = x + y := by
  obtain ⟨a, rfl⟩ := hx
  exact (Nat.mul_add_lt_is_or hy a).symm

theorem signExtend32_of_lt (x : Nat) (h : x < 2 ^ 31) : signExtend32 x = x := by
  unfold signExtend32
  have e : x % 2 ^ 32 = x := Nat.mod_eq_of_lt (by omega)
  rw [e, if_pos h]

theorem signExtend32_lt (x : Nat) : signExtend32 x < 2 ^ 64 := by
  unfold signExtend32
  split <;> omega

theorem signExtend32_range (x : Nat) :
    signExtend32 x < 2 ^ 31 ∨ 2 ^ 64 - 2 ^ 31 ≤ signExtend32 x := by
  unfold signExtend32
  split
  · left; assumption
  · right; omega

theorem shiftedByte_zero (n : Nat) : shiftedByte 0 n = 0 := by
  unfold shiftedByte
  rw [Nat.zero_shiftLeft]
  exact signExtend32_of_lt 0 (by omega)

theorem shiftedByte_four (b : Nat) (h : b < 128) : shiftedByte b 4 = b * 2 ^ 24 := by
  show signExtend32 (b <<< 24) = _
  rw [Nat.shiftLeft_eq]
  exact signExtend32_of_lt _ (by omega)

theorem shiftedByte_five (b : Nat) (h : b < 256) : shiftedByte b 5 = b * 2 ^ 16 := by
  show signExtend32 (b <<< 16) = _
  rw [Nat.shiftLeft_eq]
  exact signExtend32_of_lt _ (by omega)

theorem shiftedByte_six (b : Nat) (h : b < 256) : shiftedByte b 6 = b * 2 ^ 8 := by
  show signExtend32 (b <<< 8) = _
  rw [Nat.shiftLeft_eq]
  exact signExtend32_of_lt _ (by omega)

theorem shiftedByte_seven (b : Nat) (h : b < 256) : shiftedByte b 7 = b := by
  show signExtend32 (b <<< 0) = _
  rw [Nat.shiftLeft_eq, Nat.pow_zero, Nat.mul_one]
  exact signExtend32_of_lt _ (by omega)

theorem le_or_left (a b : Nat) : a ≤ a ||| b :=
  Nat.le_of_testBit (fun i h => by rw [Nat.testBit_or, h, Bool.true_or])

theorem le_or_right (a b : Nat) : b ≤ a ||| b :=
  Nat.le_of_testBit (fun i h => by rw [Nat.testBit_or, h, Bool.or_true])

/-- The value that `loadu64` reads from the big-endian bytes of a number below
`2 ^ 31` is that number: the four high bytes are zero and the sign bit of the
32-bit shift is clear. -/
theorem or_small_bytes (x : Nat) (hx : x < 2 ^ 31) :
    (((((((0 ||| shiftedByte (x >>> 56 % 256) 0) ||| shiftedByte (x >>> 48 % 256) 1)
      ||| shiftedByte (x >>> 40 % 256) 2) ||| shiftedByte (x >>> 32 % 256) 3)
      ||| shiftedByte (x >>> 24 % 256) 4) ||| shiftedByte (x >>> 16 % 256) 5)
      ||| shiftedByte (x >>> 8 % 256) 6) ||| shiftedByte (x >>> 0 % 256) 7 = x := by
  have z0 : x >>> 56 % 256 = 0 := by simp only [Nat.shiftRight_eq_div_pow]; omega
  have z1 : x >>> 48 % 256 = 0 := by simp only [Nat.shiftRight_eq_div_pow]; omega
  have z2 : x >>> 40 % 256 = 0 := by simp only [Nat.shiftRight_eq_div_pow]; omega
  have z3 : x >>> 32 % 256 = 0 := by simp only [Nat.shiftRight_eq_div_pow]; omega
  have b4 : x >>> 24 % 256 < 128 := by simp only [Nat.shiftRight_eq_div_pow]; omega
  rw [z0, z1, z2, z3, shiftedByte_zero, shiftedByte_zero, shiftedByte_zero, shiftedByte_zero,
    shiftedByte_four _ b4, shiftedByte_five _ (Nat.mod_lt _ (by decide)),
    shiftedByte_six _ (Nat.mod_lt _ (by decide)), shiftedByte_seven _ (Nat.mod_lt _ (by decide))]
  simp only [Nat.zero_or]
  have c5 : x >>> 16 % 256 < 256 := Nat.mod_lt _ (by decide)
  have c6 : x >>> 8 % 256 < 256 := Nat.mod_lt _ (by decide)
  have c7 : x >>> 0 % 256 < 256 := Nat.mod_lt _ (by decide)
  rw [or_eq_add_of_dvd (x >>> 24 % 256 * 2 ^ 24) (x >>> 16 % 256 * 2 ^ 16) 24 (by omega)
    (by omega)]
  rw [or_eq_add_of_dvd (x >>> 24 % 256 * 2 ^ 24 + x >>> 16 % 256 * 2 ^ 16)
    (x >>> 8 % 256 * 2 ^ 8) 16 (by omega) (by omega)]
  rw [or_eq_add_of_dvd (x >>> 24 % 256 * 2 ^ 24 + x >>> 16 % 256 * 2 ^ 16 + x >>> 8 % 256 * 2 ^ 8)
    (x >>> 0 % 256) 8 (by omega) (by omega)]
  simp only [Nat.shiftRight_eq_div_pow]
  omega

theorem clampBytes_of_le (size offset : Nat) (h : offset + 8 ≤ size) (hs : size < 2 ^ 64) :
    clampBytes size offset = 8 := by
  unfold clampBytes
  omega

theorem range_eight : List.range 8 = [0, 1, 2, 3, 4, 5, 6, 7] := by decide

theorem Span.index_of_lt (s : Span) (i : Nat) (h : i < s.size) : s.index i = s.data.getD i 0 := by
  simp [Span.index, h]

/-- An in-range `loadu64` ORs the eight shifted bytes at `offset`. -/
theorem loadu64_eq (s : Span) (offset : Nat) (h : offset + 8 ≤ s.size) (hs : s.size < 2 ^ 64) :
    loadu64 s offset =
      (((((((0 ||| shiftedByte (s.data.getD (offset + 0) 0) 0)
        ||| shiftedByte (s.data.getD (offset + 1) 0) 1)
        ||| shiftedByte (s.data.getD (offset + 2) 0) 2)
        ||| shiftedByte (s.data.getD (offset + 3) 0) 3)
        ||| shiftedByte (s.data.getD (offset + 4) 0) 4)
        ||| shiftedByte (s.data.getD (offset + 5) 0) 5)
        ||| shiftedByte (s.data.getD (offset + 6) 0) 6)
        ||| shiftedByte (s.data.getD (offset + 7) 0) 7 := by
  unfold loadu64
  rw [clampBytes_of_le _ _ h hs]
  dsimp only
  rw [range_eight]
  simp only [List.foldl_cons, List.foldl_nil]
  rw [s.index_of_lt (offset + 0) (by omega), s.index_of_lt (offset + 1) (by omega),
    s.index_of_lt (offset + 2) (by omega), s.index_of_lt (offset + 3) (by omega),
    s.index_of_lt (offset + 4) (by omega), s.index_of_lt (offset + 5) (by omega),
    s.index_of_lt (offset + 6) (by omega), s.index_of_lt (offset + 7) (by omega)]

/-- The value of `loadu64` is a sign-extended 32-bit pattern: it is below `2 ^ 31`,
or its bits 31 to 63 are all set. -/
theorem loadu64_range (s : Span) (offset : Nat) :
    loadu64 s offset < 2 ^ 64 ∧
      (loadu64 s offset < 2 ^ 31 ∨ 2 ^ 64 - 2 ^ 31 ≤ loadu64 s offset) := by
  unfold loadu64
  dsimp only
  have key : ∀ (l : List Nat) (v : Nat),
      (v < 2 ^ 64 ∧ (v < 2 ^ 31 ∨ 2 ^ 64 - 2 ^ 31 ≤ v)) →
      (l.foldl (fun value n => value ||| shiftedByte (s.index (offset + n)) n) v < 2 ^ 64 ∧
        (l.foldl (fun value n => value ||| shiftedByte (s.index (offset + n)) n) v < 2 ^ 31 ∨
          2 ^ 64 - 2 ^ 31 ≤
            l.foldl (fun value n => value ||| shiftedByte (s.index (offset + n)) n) v)) := by
    intro l
    induction l with
    | nil => intro v hv; exact hv
    | cons n l ih =>
      intro v hv
      rw [List.foldl_cons]
      apply ih
      have t64 : shiftedByte (s.index (offset + n)) n < 2 ^ 64 := signExtend32_lt _
      have tr := signExtend32_range (s.index (offset + n) <<< ((8 * (7 - n)) % 32))
      refine ⟨Nat.or_lt_two_pow hv.1 t64, ?_⟩
      have l1 := le_or_left v (shiftedByte (s.index (offset + n)) n)
      have l2 := le_or_right v (shiftedByte (s.index (offset + n)) n)
      rcases hv.2 with hv2 | hv2
      · rcases tr with tr | tr
        · left; exact Nat.or_lt_two_pow hv2 tr
        · right; exact Nat.le_trans tr l2
      · right; exact Nat.le_trans hv2 l1
  exact key _ 0 ⟨by omega, Or.inl (by omega)⟩

end Codec

section StoreLemmas

theorem foldl_set_length (g f : Nat → Nat) (ks : List Nat) (b : List Nat) :
    (ks.foldl (fun buf n => buf.set (g n) (f n)) b).length = b.length := by
  induction ks generalizing b with
  | nil => rfl
  | cons k ks ih => simp [List.foldl_cons, ih]

theorem store64_length (b : List Nat) (offset x : Nat) : (store64 b offset x).length = b.length :=
  foldl_set_length (fun n => offset + n) (fun n => (x >>> (8 * (7 - n))) % 256) _ b

theorem store_length (b : List Nat) (offset : Nat) (v : M128) :
    (store b offset v).length = b.length := by
  unfold store
  rw [store64_length, store64_length]

theorem foldl_set_range_eq (f : Nat → Nat) (b : List Nat) (offset : Nat) :
    ∀ k, offset + k ≤ b.length →
      (List.range k).foldl (fun buf n => buf.set (offset + n) (f n)) b
        = b.take offset ++ (List.range k).map f ++ b.drop (offset + k) := by
  intro k
  induction k with
  | zero => intro _; simp
  | succ k ih =>
    intro h
    rw [List.range_succ, List.foldl_append, ih (by omega)]
    simp only [List.foldl_cons, List.foldl_nil, List.map_append, List.map_cons, List.map_nil]
    have hlen : (b.take offset ++ (List.range k).map f).length = offset + k := by
      simp [List.length_take]; omega
    rw [List.set_append_right _ _ (by omega), hlen, Nat.sub_self,
      List.drop_eq_getElem_cons (by omega : offset + k < b.length)]
    simp [List.append_assoc, Nat.add_assoc]

theorem bytes64_length (x : Nat) : (bytes64 x).length = 8 := by
  simp [bytes64]

theorem blockBytes_length (v : M128) : (blockBytes v).length = 16 := by
  simp [blockBytes, bytes64_length]

/-- An in-range `store` of a lane replaces the eight bytes at `offset` by the
big-endian bytes of the lane. -/
theorem store64_eq (b : List Nat) (offset x : Nat) (h : offset + 8 ≤ b.length)
    (hs : b.length < 2 ^ 64) :
    store64 b offset x = b.take offset ++ bytes64 x ++ b.drop (offset + 8) := by
  unfold store64 bytes64
  rw [clampBytes_of_le _ _ h hs]
  exact foldl_set_range_eq _ b offset 8 h

/-- An in-range `store` of a block replaces the sixteen bytes at `offset` by the
big-endian bytes of the two lanes. -/
theorem store_eq (b : List Nat) (offset : Nat) (v : M128) (h : offset + 16 ≤ b.length)
    (hs : b.length < 2 ^ 64) :
    store b offset v = b.take offset ++ blockBytes v ++ b.drop (offset + 16) := by
  unfold store blockBytes
  rw [store64_eq b offset v.d0 (by omega) hs]
  have hlen : (b.take offset ++ bytes64 v.d0 ++ b.drop (offset + 8)).length = b.length := by
    simp [List.length_take, bytes64_length]; omega
  rw [store64_eq _ (offset + 8) v.d1 (by omega) (by omega)]
  have h1 : (b.take offset ++ bytes64 v.d0 ++ b.drop (offset + 8)).take (offset + 8)
      = b.take offset ++ bytes64 v.d0 := by
    apply List.take_left'
    simp [List.length_take, bytes64_length]; omega
  have h2 : (b.take offset ++ bytes64 v.d0 ++ b.drop (offset + 8)).drop (offset + 8 + 8)
      = b.drop (offset + 16) := by
    have e : offset + 8 + 8 = (b.take offset ++ bytes64 v.d0).length + 8 := by
      simp [List.length_take, bytes64_length]; omega
    rw [e, List.drop_append, List.drop_drop]
    congr 1
  rw [h1, h2, List.append_assoc (b.take offset)]

/-- Reading back the big-endian bytes of a lane below `2 ^ 31` gives the lane. -/
theorem loadu64_append_bytes64 (pre rest : List Nat) (past : Nat → Nat) (x : Nat)
    (hx : x < 2 ^ 31) (hs : (pre ++ bytes64 x ++ rest).length < 2 ^ 64) :
    loadu64 ⟨pre ++ bytes64 x ++ rest, past⟩ pre.length = x := by
  have hg : ∀ n, (pre ++ bytes64 x ++ rest).getD (pre.length + n) 0
      = (bytes64 x ++ rest).getD n 0 := by
    intro n
    rw [List.append_assoc, List.getD_append_right _ _ _ _ (by omega)]
    congr 1; omega
  have hsz : pre.length + 8 ≤ (Span.mk (pre ++ bytes64 x ++ rest) past).size := by
    show pre.length + 8 ≤ (pre ++ bytes64 x ++ rest).length
    simp only [List.length_append, bytes64_length]
    omega
  rw [loadu64_eq _ _ hsz hs]
  show (((((((0 ||| shiftedByte ((pre ++ bytes64 x ++ rest).getD (pre.length + 0) 0) 0)
    ||| shiftedByte ((pre ++ bytes64 x ++ rest).getD (pre.length + 1) 0) 1)
    ||| shiftedByte ((pre ++ bytes64 x ++ rest).getD (pre.length + 2) 0) 2)
    ||| shiftedByte ((pre ++ bytes64 x ++ rest).getD (pre.length + 3) 0) 3)
    ||| shiftedByte ((pre ++ bytes64 x ++ rest).getD (pre.length + 4) 0) 4)
    ||| shiftedByte ((pre ++ bytes64 x ++ rest).getD (pre.length + 5) 0) 5)
    ||| shiftedByte ((pre ++ bytes64 x ++ rest).getD (pre.length + 6) 0) 6)
    ||| shiftedByte ((pre ++ bytes64 x ++ rest).getD (pre.length + 7) 0) 7 = x
  rw [hg 0, hg 1, hg 2, hg 3, hg 4, hg 5, hg 6, hg 7]
  simp only [bytes64, range_eight, List.map_cons, List.map_nil, List.cons_append,
    List.getD_cons_zero, List.getD_cons_succ]
  exact or_small_bytes x hx

end StoreLemmas

section OpenLemmas

variable {AesKeySchedule : Type}

theorem resize_length (v : List Nat) (n : Nat) : (resize v n).length = n := by
  simp [resize, List.length_take]
  omega

theorem viewFront_length (buffer : Span) (asize : Nat) : (viewFront buffer asize).length = asize := by
  simp [viewFront]

theorem blockCount_of_le (n : Nat) (h : n ≤ 0x10000000000) : blockCount n = (n + 15) / 16 := by
  unfold blockCount
  omega

theorem foldHash_append (prim : Primitives AesKeySchedule) (H hash : M128) (xs ys : List M128) :
    foldHash prim H hash (xs ++ ys) = foldHash prim H (foldHash prim H hash xs) ys := by
  simp [foldHash]

theorem blocksFrom_length (buffer : Span) (offset n : Nat) :
    (blocksFrom buffer offset n).length = n := by
  induction n generalizing offset with
  | zero => rfl
  | succ n ih => simp [blocksFrom, ih]

theorem blocksFrom_append (buffer : Span) (offset m n : Nat) :
    blocksFrom buffer offset (m + n)
      = blocksFrom buffer offset m ++ blocksFrom buffer (offset + 16 * m) n := by
  induction m generalizing offset with
  | zero => simp [blocksFrom]
  | succ m ih =>
    rw [Nat.succ_add, blocksFrom, blocksFrom, ih (offset + 16), List.cons_append]
    congr 3
    omega

/-- The associated-data loop of `AesGcmDecrypt`, given enough iterations, stops at
the end of the region and has folded its blocks in order. -/
theorem openAadLoop_eq (prim : Primitives AesKeySchedule) (H : M128) (buffer : Span)
    (asize : Nat) :
    ∀ fuel offset hash, asize ≤ offset + 16 * fuel →
      openAadLoop prim H buffer asize fuel offset hash
        = (offset + 16 * ((asize - offset + 15) / 16),
           foldHash prim H hash (blocksFrom buffer offset ((asize - offset + 15) / 16))) := by
  intro fuel
  induction fuel with
  | zero =>
    intro offset hash h
    have : (asize - offset + 15) / 16 = 0 := by omega
    simp [openAadLoop, this, blocksFrom, foldHash]
  | succ fuel ih =>
    intro offset hash h
    unfold openAadLoop
    by_cases hlt : offset < asize
    · have hn : (asize - offset + 15) / 16 = (asize - (offset + 16) + 15) / 16 + 1 := by omega
      simp only [hlt, if_true]
      rw [ih (offset + 16) _ (by omega), hn, blocksFrom]
      simp only [foldHash, List.foldl_cons, Prod.mk.injEq, and_true]
      omega
    · have : (asize - offset + 15) / 16 = 0 := by omega
      simp [hlt, this, blocksFrom, foldHash]

/-- The ciphertext loop of `AesGcmDecrypt`, given enough iterations, stops after
`ceil(psize / 16)` blocks, has folded them in order, and keeps the length of the
plaintext buffer. -/
theorem openDataLoop_eq (prim : Primitives AesKeySchedule) (schedule : AesKeySchedule)
    (H : M128) (buffer : Span) (psize : Nat) :
    ∀ fuel i offset ctr hash plaintext, psize ≤ i + 16 * fuel →
      (openDataLoop prim schedule H buffer psize fuel i offset ctr hash plaintext).1
          = offset + 16 * ((psize - i + 15) / 16) ∧
      (openDataLoop prim schedule H buffer psize fuel i offset ctr hash plaintext).2.2.1
          = foldHash prim H hash (blocksFrom buffer offset ((psize - i + 15) / 16)) ∧
      (openDataLoop prim schedule H buffer psize fuel i offset ctr hash plaintext).2.2.2.length
          = plaintext.length := by
  intro fuel
  induction fuel with
  | zero =>
    intro i offset ctr hash plaintext h
    have : (psize - i + 15) / 16 = 0 := by omega
    simp [openDataLoop, this, blocksFrom, foldHash]
  | succ fuel ih =>
    intro i offset ctr hash plaintext h
    unfold openDataLoop
    by_cases hlt : i < psize
    · have hn : (psize - i + 15) / 16 = (psize - (i + 16) + 15) / 16 + 1 := by omega
      simp only [hlt, if_true]
      obtain ⟨h1, h2, h3⟩ := ih (i + 16) (offset + 16) (prim.inc ctr)
        (prim.ghash (load buffer offset) hash H)
        (store plaintext i ((load buffer offset).xor (prim.AesEncrypt schedule (prim.inc ctr))))
        (by omega)
      refine ⟨?_, ?_, ?_⟩
      · rw [h1, hn]; omega
      · rw [h2, hn, blocksFrom]; simp [foldHash]
      · rw [h3, store_length]
    · have : (psize - i + 15) / 16 = 0 := by omega
      simp [hlt, this, blocksFrom, foldHash]

/-- On a blob that passes the checks of lines 73 and 81-83, the value compared with
the tag is the fold of every 16-byte block of the blob before the tag. -/
theorem openTag_eq (prim : Primitives AesKeySchedule) (hash0 : M128)
    (schedule : AesKeySchedule) (buffer iv : Span)
    (hf : ¬ formatRejected buffer)
    (hsz : ¬ sizesRejected (openSizes prim schedule buffer iv).d0
      (openSizes prim schedule buffer iv).d1 buffer.size) :
    openTag prim hash0 schedule buffer iv
      = foldHash prim (hashSubkey prim schedule) hash0
          (blocksFrom buffer 0 (buffer.size / 16 - 1)) := by
  unfold formatRejected at hf
  unfold sizesRejected at hsz
  have ha : (openSizes prim schedule buffer iv).d0 ≤ 0x10000000000 := by omega
  have hp : (openSizes prim schedule buffer iv).d1 ≤ 0x10000000000 := by omega
  have hc : (blockCount (openSizes prim schedule buffer iv).d0
      + blockCount (openSizes prim schedule buffer iv).d1 + 2) % 2 ^ 64 = buffer.size / 16 := by
    omega
  rw [blockCount_of_le _ ha, blockCount_of_le _ hp] at hc
  unfold openTag openBody
  simp only
  rw [openAadLoop_eq prim _ buffer _ _ 0 hash0 (by omega)]
  simp only
  rw [(openDataLoop_eq prim schedule _ buffer _ _ 0 _ _ _ _ (by omega)).2.1]
  simp only [Nat.sub_zero, Nat.zero_add]
  have hb := blocksFrom_append buffer 0 (((openSizes prim schedule buffer iv).d0 + 15) / 16)
    (((openSizes prim schedule buffer iv).d1 + 15) / 16)
  simp only [Nat.zero_add] at hb
  rw [← foldHash_append, ← hb]
  have e1 : buffer.size - 32 = 0 + 16 * (((openSizes prim schedule buffer iv).d0 + 15) / 16
      + ((openSizes prim schedule buffer iv).d1 + 15) / 16) := by omega
  have e2 : buffer.size / 16 - 1 = ((openSizes prim schedule buffer iv).d0 + 15) / 16
      + ((openSizes prim schedule buffer iv).d1 + 15) / 16 + 1 := by omega
  rw [e1, e2, blocksFrom_append buffer 0 _ 1, foldHash_append]
  simp only [blocksFrom, foldHash, List.foldl_cons, List.foldl_nil]

/-- A blob rejected by the length check of line 73 gets the failure result. -/
theorem open_of_formatRejected (prim : Primitives AesKeySchedule) (hash0 : M128)
    (schedule : AesKeySchedule) (buffer iv : Span) (hiv : iv.size = 12)
    (hf : formatRejected buffer) :
    AesGcmDecrypt prim hash0 schedule buffer iv = Except.ok ([], []) := by
  unfold AesGcmDecrypt
  simp [hiv, hf]

/-- A blob rejected by the check of lines 81-83 gets the failure result. -/
theorem open_of_sizesRejected (prim : Primitives AesKeySchedule) (hash0 : M128)
    (schedule : AesKeySchedule) (buffer iv : Span) (hiv : iv.size = 12)
    (hs : sizesRejected (openSizes prim schedule buffer iv).d0
      (openSizes prim schedule buffer iv).d1 buffer.size) :
    AesGcmDecrypt prim hash0 schedule buffer iv = Except.ok ([], []) := by
  unfold AesGcmDecrypt
  simp [hiv, hs]

/-- A blob that fails one of the three checks gets the failure result. -/
theorem open_of_not_accepted (prim : Primitives AesKeySchedule) (hash0 : M128)
    (schedule : AesKeySchedule) (buffer iv : Span) (hiv : iv.size = 12)
    (hA : ¬ Accepted prim hash0 schedule buffer iv) :
    AesGcmDecrypt prim hash0 schedule buffer iv = Except.ok ([], []) := by
  unfold Accepted at hA
  by_cases hf : formatRejected buffer
  · exact open_of_formatRejected prim hash0 schedule buffer iv hiv hf
  · by_cases hs : sizesRejected (openSizes prim schedule buffer iv).d0
        (openSizes prim schedule buffer iv).d1 buffer.size
    · exact open_of_sizesRejected prim hash0 schedule buffer iv hiv hs
    · have ht : tagRejected prim hash0 schedule buffer iv := by
        by_contra ht
        exact hA ⟨hf, hs, ht⟩
      unfold AesGcmDecrypt
      simp [hiv, hf, hs, ht]

end OpenLemmas

section OpenClaims

variable {AesKeySchedule : Type}

/-- C4 (nonce validation). `AesGcmEncrypt` throws exactly when the nonce is not 12
bytes long, `AesGcmDecrypt` throws exactly when the nonce is not 12 bytes long,
whatever the blob, and with a 12-byte nonce (and only then) `AesGcmEncrypt`
returns a blob. -/
theorem nonce_validation (prim : Primitives AesKeySchedule) (hash0 : M128)
    (schedule : AesKeySchedule) (plaintext additional buffer iv : Span) :
    ((∃ e, AesGcmEncrypt prim hash0 schedule plaintext additional iv = Except.error e)
        ↔ iv.size ≠ 12) ∧
    ((∃ e, AesGcmDecrypt prim hash0 schedule buffer iv = Except.error e) ↔ iv.size ≠ 12) ∧
    ((∃ blob, AesGcmEncrypt prim hash0 schedule plaintext additional iv = Except.ok blob)
        ↔ iv.size = 12) := by
  refine ⟨?_, ?_, ?_⟩
  · unfold AesGcmEncrypt
    by_cases h : iv.size = 12 <;> simp [h]
  · unfold AesGcmDecrypt
    by_cases h : iv.size = 12
    · simp only [h, ne_eq, not_true_eq_false, if_false, iff_false, not_exists]
      intro e
      split
      · simp
      · split
        · simp
        · split <;> simp
    · simp [h]
  · unfold AesGcmEncrypt
    by_cases h : iv.size = 12 <;> simp [h]

/-- C5 (format validation). With a 12-byte nonce, a blob shorter than 48 bytes or
of a length that is not a multiple of 16 makes `AesGcmDecrypt` return the failure
result, whatever its bytes. -/
theorem format_validation (prim : Primitives AesKeySchedule) (hash0 : M128)
    (schedule : AesKeySchedule) (buffer iv : Span) (hiv : iv.size = 12)
    (h : buffer.size < 48 ∨ buffer.size % 16 ≠ 0) :
    AesGcmDecrypt prim hash0 schedule buffer iv = Except.ok ([], []) := by
  exact open_of_formatRejected prim hash0 schedule buffer iv hiv h

theorem format_validation_witness :
    ((spanOf shortBlob).size < 48 ∨ (spanOf shortBlob).size % 16 ≠ 0) ∧
    AesGcmDecrypt samplePrimitives ⟨0, 0⟩ () (spanOf shortBlob) sampleNonce
      = Except.ok ([], []) :=
  ⟨by decide, format_validation samplePrimitives ⟨0, 0⟩ () (spanOf shortBlob)
    sampleNonce (by decide) (by decide)⟩

/-- C6 (length-consistency validation). With a 12-byte nonce and a blob of at least
48 bytes whose length is a multiple of 16, the condition
`roundUp16(asize) + roundUp16(psize) + 32 ≠ len(blob)` on the decoded sizes is the
condition `ceil(asize / 16) + ceil(psize / 16) + 2 ≠ len(blob) / 16`, and under it
`AesGcmDecrypt` returns the failure result. -/
theorem length_consistency (prim : Primitives AesKeySchedule) (hash0 : M128)
    (schedule : AesKeySchedule) (buffer iv : Span) (hiv : iv.size = 12)
    (hlen : 48 ≤ buffer.size) (hmod : buffer.size % 16 = 0) :
    (roundUp16 (openSizes prim schedule buffer iv).d0
        + roundUp16 (openSizes prim schedule buffer iv).d1 + 32 ≠ buffer.size
      ↔ ((openSizes prim schedule buffer iv).d0 + 15) / 16
        + ((openSizes prim schedule buffer iv).d1 + 15) / 16 + 2 ≠ buffer.size / 16) ∧
    (roundUp16 (openSizes prim schedule buffer iv).d0
        + roundUp16 (openSizes prim schedule buffer iv).d1 + 32 ≠ buffer.size →
      AesGcmDecrypt prim hash0 schedule buffer iv = Except.ok ([], [])) := by
  refine ⟨?_, ?_⟩
  · unfold roundUp16
    omega
  · intro h
    have hrej : sizesRejected (openSizes prim schedule buffer iv).d0
        (openSizes prim schedule buffer iv).d1 buffer.size := by
      unfold sizesRejected blockCount
      unfold roundUp16 at h
      omega
    exact open_of_sizesRejected prim hash0 schedule buffer iv hiv hrej

theorem length_consistency_witness :
    roundUp16 (openSizes samplePrimitives () (spanOf (sampleBlob ++ List.replicate 16 0))
        sampleNonce).d0
      + roundUp16 (openSizes samplePrimitives () (spanOf (sampleBlob ++ List.replicate 16 0))
        sampleNonce).d1 + 32 ≠ (spanOf (sampleBlob ++ List.replicate 16 0)).size ∧
    AesGcmDecrypt samplePrimitives ⟨0, 0⟩ () (spanOf (sampleBlob ++ List.replicate 16 0))
      sampleNonce = Except.ok ([], []) :=
  ⟨by decide, (length_consistency samplePrimitives ⟨0, 0⟩ ()
    (spanOf (sampleBlob ++ List.replicate 16 0)) sampleNonce (by decide) (by decide)
    (by decide)).2 (by decide)⟩

/-- C7 (overflow guard). With a 12-byte nonce, a blob (of valid length, or of any
other) whose decoded `asize` or `psize` is above `0x10000000000` makes
`AesGcmDecrypt` return the failure result; this covers the values for which
`(asize + 15) / 16` wraps around and the block-count equation of line 83 holds. -/
theorem overflow_guard (prim : Primitives AesKeySchedule) (hash0 : M128)
    (schedule : AesKeySchedule) (buffer iv : Span) (hiv : iv.size = 12)
    (h : (openSizes prim schedule buffer iv).d0 > 0x10000000000 ∨
      (openSizes prim schedule buffer iv).d1 > 0x10000000000) :
    AesGcmDecrypt prim hash0 schedule buffer iv = Except.ok ([], []) := by
  have hrej : sizesRejected (openSizes prim schedule buffer iv).d0
      (openSizes prim schedule buffer iv).d1 buffer.size := by
    unfold sizesRejected
    omega
  exact open_of_sizesRejected prim hash0 schedule buffer iv hiv hrej

theorem overflow_guard_witness :
    ¬ formatRejected (spanOf wrapBlob) ∧
    (openSizes samplePrimitives () (spanOf wrapBlob) sampleNonce).d0 = 2 ^ 64 - 1 ∧
    (blockCount (openSizes samplePrimitives () (spanOf wrapBlob) sampleNonce).d0
      + blockCount (openSizes samplePrimitives () (spanOf wrapBlob) sampleNonce).d1 + 2)
        % 2 ^ 64 = (spanOf wrapBlob).size / 16 ∧
    AesGcmDecrypt samplePrimitives ⟨0, 0⟩ () (spanOf wrapBlob) sampleNonce
      = Except.ok ([], []) :=
  ⟨by decide, by decide, by decide, overflow_guard samplePrimitives ⟨0, 0⟩ ()
    (spanOf wrapBlob) sampleNonce (by decide) (by decide)⟩

/-- C3 (failure marker). With a 12-byte nonce, `AesGcmDecrypt` returns the pair of
an empty plaintext and an empty view exactly when a check rejects the blob (the
length check of line 73, the ceiling or block-count check of lines 81-83, the tag
comparison of line 99); an accepted blob yields a plaintext of `psize` bytes and a
view of `asize` bytes, at least one of which is non-empty. -/
theorem empty_pair_iff_rejected (prim : Primitives AesKeySchedule) (hash0 : M128)
    (schedule : AesKeySchedule) (buffer iv : Span) (hiv : iv.size = 12) :
    (AesGcmDecrypt prim hash0 schedule buffer iv = Except.ok ([], [])
      ↔ ¬ Accepted prim hash0 schedule buffer iv) ∧
    (Accepted prim hash0 schedule buffer iv →
      ∃ plaintext view,
        AesGcmDecrypt prim hash0 schedule buffer iv = Except.ok (plaintext, view) ∧
        plaintext.length = (openSizes prim schedule buffer iv).d1 ∧
        view.length = (openSizes prim schedule buffer iv).d0 ∧
        (plaintext ≠ [] ∨ view ≠ [])) := by
  have hacc : Accepted prim hash0 schedule buffer iv →
      ∃ plaintext view,
        AesGcmDecrypt prim hash0 schedule buffer iv = Except.ok (plaintext, view) ∧
        plaintext.length = (openSizes prim schedule buffer iv).d1 ∧
        view.length = (openSizes prim schedule buffer iv).d0 ∧
        (plaintext ≠ [] ∨ view ≠ []) := by
    rintro ⟨hf, hs, ht⟩
    refine ⟨resize (openBody prim hash0 schedule buffer iv).2.2.2
      (openSizes prim schedule buffer iv).d1,
      viewFront buffer (openSizes prim schedule buffer iv).d0, ?_, resize_length _ _,
      viewFront_length _ _, ?_⟩
    · unfold AesGcmDecrypt
      simp [hiv, hf, hs, ht]
    · have hpos : 0 < (openSizes prim schedule buffer iv).d1 ∨
          0 < (openSizes prim schedule buffer iv).d0 := by
        unfold formatRejected at hf
        unfold sizesRejected blockCount at hs
        omega
      rcases hpos with hp | ha
      · left
        intro hnil
        have := resize_length (openBody prim hash0 schedule buffer iv).2.2.2
          (openSizes prim schedule buffer iv).d1
        rw [hnil] at this
        simp at this
        omega
      · right
        intro hnil
        have := viewFront_length buffer (openSizes prim schedule buffer iv).d0
        rw [hnil] at this
        simp at this
        omega
  refine ⟨⟨?_, ?_⟩, hacc⟩
  · intro hres hA
    obtain ⟨plaintext, view, heq, _, _, hne⟩ := hacc hA
    rw [hres] at heq
    injection heq with heq
    injection heq with h1 h2
    rcases hne with hne | hne
    · exact hne h1.symm
    · exact hne h2.symm
  · exact open_of_not_accepted prim hash0 schedule buffer iv hiv

theorem empty_pair_iff_rejected_witness :
    Accepted samplePrimitives ⟨0, 0⟩ () (spanOf sampleBlob) sampleNonce ∧
    (∃ plaintext view,
      AesGcmDecrypt samplePrimitives ⟨0, 0⟩ () (spanOf sampleBlob) sampleNonce
        = Except.ok (plaintext, view) ∧
      plaintext.length = (openSizes samplePrimitives () (spanOf sampleBlob) sampleNonce).d1 ∧
      view.length = (openSizes samplePrimitives () (spanOf sampleBlob) sampleNonce).d0 ∧
      (plaintext ≠ [] ∨ view ≠ [])) ∧
    (AesGcmDecrypt samplePrimitives ⟨0, 0⟩ () (spanOf wrapBlob) sampleNonce
        = Except.ok ([], [])
      ↔ ¬ Accepted samplePrimitives ⟨0, 0⟩ () (spanOf wrapBlob) sampleNonce) :=
  ⟨by decide,
    (empty_pair_iff_rejected samplePrimitives ⟨0, 0⟩ () (spanOf sampleBlob) sampleNonce
      (by decide)).2 (by decide),
    (empty_pair_iff_rejected samplePrimitives ⟨0, 0⟩ () (spanOf wrapBlob) sampleNonce
      (by decide)).1⟩

end OpenClaims

section SealLemmas

variable {AesKeySchedule : Type}

theorem mask_testBit (i : Nat) :
    Nat.testBit 0xFFFFFFFFFFFFFFF0 i = (decide (4 ≤ i) && decide (i < 64)) := by
  have e : 0xFFFFFFFFFFFFFFF0 = (2 ^ 60 - 1) <<< 4 := by decide
  rw [e, Nat.testBit_shiftLeft, Nat.testBit_two_pow_sub_one]
  by_cases h : 4 ≤ i <;> simp [h]
  omega

/-- The expression `(n + 15) & ~15` rounds up to a multiple of 16 when `n + 15`
does not wrap. -/
theorem alignUp_eq (n : Nat) (h : n + 15 < 2 ^ 64) : alignUp n = roundUp16 n := by
  unfold alignUp roundUp16
  rw [Nat.mod_eq_of_lt h]
  apply Nat.eq_of_testBit_eq
  intro i
  have e : 16 * ((n + 15) / 16) = ((n + 15) >>> 4) <<< 4 := by
    rw [Nat.shiftLeft_eq, Nat.shiftRight_eq_div_pow]
    omega
  rw [e, Nat.testBit_and, mask_testBit, Nat.testBit_shiftLeft, Nat.testBit_shiftRight]
  by_cases h4 : 4 ≤ i
  · by_cases h64 : i < 64
    · have : 4 + (i - 4) = i := by omega
      simp [h4, h64, this]
    · have hlt : n + 15 < 2 ^ i :=
        Nat.lt_of_lt_of_le h (Nat.pow_le_pow_right (by decide) (by omega))
      have : 4 + (i - 4) = i := by omega
      simp [h4, h64, this, Nat.testBit_lt_two_pow hlt]
  · simp [h4]

theorem roundUp16_least (n : Nat) :
    16 ∣ roundUp16 n ∧ n ≤ roundUp16 n ∧ ∀ m, 16 ∣ m → n ≤ m → roundUp16 n ≤ m := by
  unfold roundUp16
  refine ⟨Nat.dvd_mul_right _ _, by omega, ?_⟩
  intro m hm hn
  omega

theorem sealedSize_eq (p a : Nat) (h : p + a < 2 ^ 63) :
    sealedSize p a = roundUp16 a + roundUp16 p + 32 := by
  unfold sealedSize
  rw [alignUp_eq p (by omega), alignUp_eq a (by omega)]
  unfold roundUp16
  omega

theorem zeroTail_length (buffer : List Nat) (offset bytes : Nat) :
    (zeroTail buffer offset bytes).length = buffer.length :=
  foldl_set_length (fun b => offset + b) (fun _ => 0) _ buffer

theorem trimLast_length (buffer : List Nat) (plaintextSize i offset : Nat) :
    (trimLast buffer plaintextSize i offset).length = buffer.length := by
  unfold trimLast
  split
  · dsimp only
    split
    · exact zeroTail_length _ _ _
    · rfl
  · rfl

/-- The associated-data loop of `AesGcmEncrypt`, given enough iterations, advances
`offset` by `roundUp16` of the input size and keeps the length of the buffer. -/
theorem sealAadLoop_spec (prim : Primitives AesKeySchedule) (H : M128) (additional : Span) :
    ∀ fuel i offset hash buffer, additional.size ≤ i + 16 * fuel →
      (sealAadLoop prim H additional fuel i offset hash buffer).1
          = offset + 16 * ((additional.size - i + 15) / 16) ∧
      (sealAadLoop prim H additional fuel i offset hash buffer).2.2.length
          = buffer.length := by
  intro fuel
  induction fuel with
  | zero =>
    intro i offset hash buffer h
    have : (additional.size - i + 15) / 16 = 0 := by omega
    simp [sealAadLoop, this]
  | succ fuel ih =>
    intro i offset hash buffer h
    unfold sealAadLoop
    by_cases hlt : i < additional.size
    · simp only [hlt, if_true]
      obtain ⟨h1, h2⟩ := ih (i + 16) (offset + 16) (prim.ghash (load additional i) hash H)
        (store buffer offset (load additional i)) (by omega)
      refine ⟨?_, ?_⟩
      · rw [h1]; omega
      · rw [h2, store_length]
    · have : (additional.size - i + 15) / 16 = 0 := by omega
      simp [hlt, this]

/-- The plaintext loop of `AesGcmEncrypt`, given enough iterations, advances
`offset` by `roundUp16` of the input size and keeps the length of the buffer. -/
theorem sealDataLoop_spec (prim : Primitives AesKeySchedule) (schedule : AesKeySchedule)
    (H : M128) (plaintext : Span) :
    ∀ fuel i offset ctr hash buffer, plaintext.size ≤ i + 16 * fuel →
      (sealDataLoop prim schedule H plaintext fuel i offset ctr hash buffer).1
          = offset + 16 * ((plaintext.size - i + 15) / 16) ∧
      (sealDataLoop prim schedule H plaintext fuel i offset ctr hash buffer).2.2.2.length
          = buffer.length := by
  intro fuel
  induction fuel with
  | zero =>
    intro i offset ctr hash buffer h
    have : (plaintext.size - i + 15) / 16 = 0 := by omega
    simp [sealDataLoop, this]
  | succ fuel ih =>
    intro i offset ctr hash buffer h
    unfold sealDataLoop
    by_cases hlt : i < plaintext.size
    · simp only [hlt, if_true]
      obtain ⟨h1, h2⟩ := ih (i + 16) (offset + 16) (prim.inc ctr)
        (prim.ghash ((load plaintext i).xor (prim.AesEncrypt schedule (prim.inc ctr))) hash H)
        (trimLast (store buffer offset
          ((load plaintext i).xor (prim.AesEncrypt schedule (prim.inc ctr))))
          plaintext.size i offset) (by omega)
      refine ⟨?_, ?_⟩
      · rw [h1]; omega
      · rw [h2, trimLast_length, store_length]
    · have : (plaintext.size - i + 15) / 16 = 0 := by omega
      simp [hlt, this]

/-- After its two loops `AesGcmEncrypt` stands at offset
`roundUp16(len A) + roundUp16(len P)` in a buffer of `sealedSize` bytes. -/
theorem sealBody_spec (prim : Primitives AesKeySchedule) (hash0 : M128)
    (schedule : AesKeySchedule) (plaintext additional iv : Span) :
    (sealBody prim hash0 schedule plaintext additional iv).1
        = roundUp16 additional.size + roundUp16 plaintext.size ∧
    (sealBody prim hash0 schedule plaintext additional iv).2.2.2.length
        = sealedSize plaintext.size additional.size := by
  unfold sealBody
  simp only
  obtain ⟨a1, a2⟩ := sealAadLoop_spec prim (hashSubkey prim schedule) additional
    additional.size 0 0 hash0 (resize [] (sealedSize plaintext.size additional.size))
    (by omega)
  obtain ⟨d1, d2⟩ := sealDataLoop_spec prim schedule (hashSubkey prim schedule) plaintext
    plaintext.size 0
    (sealAadLoop prim (hashSubkey prim schedule) additional additional.size 0 0 hash0
      (resize [] (sealedSize plaintext.size additional.size))).1
    (initialCounter prim iv)
    (sealAadLoop prim (hashSubkey prim schedule) additional additional.size 0 0 hash0
      (resize [] (sealedSize plaintext.size additional.size))).2.1
    (sealAadLoop prim (hashSubkey prim schedule) additional additional.size 0 0 hash0
      (resize [] (sealedSize plaintext.size additional.size))).2.2
    (by omega)
  refine ⟨?_, ?_⟩
  · rw [d1, a1]
    unfold roundUp16
    simp
  · rw [d2, a2, resize_length]

/-- The shape of a sealed blob: the padded regions, then the big-endian bytes of
`sizes`, then those of the final accumulator. -/
theorem sealed_blob_eq (prim : Primitives AesKeySchedule) (hash0 : M128)
    (schedule : AesKeySchedule) (plaintext additional iv : Span) (hiv : iv.size = 12)
    (hsize : plaintext.size + additional.size < 2 ^ 63) :
    AesGcmEncrypt prim hash0 schedule plaintext additional iv
      = Except.ok
          ((sealBody prim hash0 schedule plaintext additional iv).2.2.2.take
              (roundUp16 additional.size + roundUp16 plaintext.size)
            ++ blockBytes (sealSizes prim schedule plaintext additional iv)
            ++ blockBytes (sealTag prim hash0 schedule plaintext additional iv)) := by
  obtain ⟨hoff, hlen⟩ := sealBody_spec prim hash0 schedule plaintext additional iv
  rw [sealedSize_eq _ _ hsize] at hlen
  have hr : roundUp16 additional.size + roundUp16 plaintext.size + 32 < 2 ^ 64 := by
    unfold roundUp16
    omega
  unfold AesGcmEncrypt
  simp only [hiv, ne_eq, not_true_eq_false, if_false]
  rw [hoff]
  generalize (sealBody prim hash0 schedule plaintext additional iv).2.2.2 = b at hlen ⊢
  generalize sealSizes prim schedule plaintext additional iv = v
  generalize sealTag prim hash0 schedule plaintext additional iv = w
  generalize roundUp16 additional.size + roundUp16 plaintext.size = off at hlen hr ⊢
  rw [store_eq b off v (by omega) (by omega)]
  have hlen1 : (b.take off ++ blockBytes v ++ b.drop (off + 16)).length = off + 32 := by
    simp [List.length_take, blockBytes_length]; omega
  rw [store_eq _ (off + 16) w (by omega) (by omega)]
  have h1 : (b.take off ++ blockBytes v ++ b.drop (off + 16)).take (off + 16)
      = b.take off ++ blockBytes v := by
    apply List.take_left'
    simp [List.length_take, blockBytes_length]; omega
  have h2 : (b.take off ++ blockBytes v ++ b.drop (off + 16)).drop (off + 16 + 16) = [] := by
    apply List.drop_eq_nil_of_le
    omega
  rw [h1, h2, List.append_nil]

/-- The length of a sealed blob. -/
theorem sealed_blob_length (prim : Primitives AesKeySchedule) (hash0 : M128)
    (schedule : AesKeySchedule) (plaintext additional iv : Span) (hiv : iv.size = 12)
    (hsize : plaintext.size + additional.size < 2 ^ 63) :
    ∃ blob, AesGcmEncrypt prim hash0 schedule plaintext additional iv = Except.ok blob ∧
      blob.length = roundUp16 additional.size + roundUp16 plaintext.size + 32 := by
  obtain ⟨_, hlen⟩ := sealBody_spec prim hash0 schedule plaintext additional iv
  rw [sealedSize_eq _ _ hsize] at hlen
  refine ⟨_, sealed_blob_eq prim hash0 schedule plaintext additional iv hiv hsize, ?_⟩
  simp only [List.length_append, blockBytes_length, List.length_take, hlen]
  omega

end SealLemmas

section SealClaims

variable {AesKeySchedule : Type}

/-- Loading the sixteen bytes that `store` wrote for a block gives the block back
when both lanes are below `2 ^ 31`. -/
theorem load_blockBytes (pre rest : List Nat) (past : Nat → Nat) (v : M128)
    (h0 : v.d0 < 2 ^ 31) (h1 : v.d1 < 2 ^ 31)
    (hs : (pre ++ blockBytes v ++ rest).length < 2 ^ 64) :
    load ⟨pre ++ blockBytes v ++ rest, past⟩ pre.length = v := by
  have e0 : pre ++ blockBytes v ++ rest = pre ++ bytes64 v.d0 ++ (bytes64 v.d1 ++ rest) := by
    simp [blockBytes, List.append_assoc]
  have e1 : pre ++ blockBytes v ++ rest = (pre ++ bytes64 v.d0) ++ bytes64 v.d1 ++ rest := by
    simp [blockBytes, List.append_assoc]
  have l1 : pre.length + 8 = (pre ++ bytes64 v.d0).length := by
    simp [bytes64_length]
  have r0 : loadu64 ⟨pre ++ blockBytes v ++ rest, past⟩ pre.length = v.d0 := by
    rw [e0]
    exact loadu64_append_bytes64 pre _ past v.d0 h0 (by rw [← e0]; exact hs)
  have r1 : loadu64 ⟨pre ++ blockBytes v ++ rest, past⟩ (pre.length + 8) = v.d1 := by
    rw [e1, l1]
    exact loadu64_append_bytes64 (pre ++ bytes64 v.d0) _ past v.d1 h1 (by rw [← e1]; exact hs)
  unfold load
  rw [r0, r1]

theorem xor_xor_cancel (a m : Nat) : (a ^^^ m) ^^^ m = a := by
  rw [Nat.xor_assoc, Nat.xor_self, Nat.xor_zero]

/-- A sign-extended 32-bit value XOR a number with a set bit and a clear bit among
the bits 41 to 63 is at least `2 ^ 41`. -/
theorem xor_above_ceiling (L m : Nat) (hL : L < 2 ^ 64)
    (hr : L < 2 ^ 31 ∨ 2 ^ 64 - 2 ^ 31 ≤ L) (h1 : 2 ^ 41 ≤ m) (h2 : m < 2 ^ 64 - 2 ^ 41) :
    L ^^^ m > 0x10000000000 := by
  have key : ∃ t, 41 ≤ t ∧ (L ^^^ m).testBit t = true := by
    rcases hr with hr | hr
    · obtain ⟨t, ht, hbit⟩ := Nat.ge_two_pow_implies_high_bit_true h1
      refine ⟨t, ht, ?_⟩
      have hlt : L < 2 ^ t :=
        Nat.lt_of_lt_of_le hr (Nat.pow_le_pow_right (by decide) (by omega))
      rw [Nat.testBit_xor, Nat.testBit_lt_two_pow hlt, hbit]
      rfl
    · have hm64 : m < 2 ^ 64 := by omega
      have hc : 2 ^ 41 ≤ 2 ^ 64 - (m + 1) := by omega
      obtain ⟨t, ht, hbit⟩ := Nat.ge_two_pow_implies_high_bit_true hc
      rw [Nat.testBit_two_pow_sub_succ hm64] at hbit
      have ht64 : t < 64 := by
        by_contra hge
        rw [decide_eq_false hge] at hbit
        simp at hbit
      have hmf : m.testBit t = false := by
        rw [decide_eq_true ht64] at hbit
        simpa using hbit
      have hL2 : 2 ^ 64 - 1 - L < 2 ^ 64 := by omega
      have hLt : L.testBit t = true := by
        have e : L = 2 ^ 64 - ((2 ^ 64 - 1 - L) + 1) := by omega
        have hlt : 2 ^ 64 - 1 - L < 2 ^ t :=
          Nat.lt_of_lt_of_le (by omega : 2 ^ 64 - 1 - L < 2 ^ 31)
            (Nat.pow_le_pow_right (by decide) (by omega))
        rw [e, Nat.testBit_two_pow_sub_succ hL2, Nat.testBit_lt_two_pow hlt,
          decide_eq_true ht64]
        rfl
      refine ⟨t, ht, ?_⟩
      rw [Nat.testBit_xor, hLt, hmf]
      rfl
  obtain ⟨t, ht, hbit⟩ := key
  have hge := Nat.testBit_implies_ge hbit
  have hpow : 2 ^ 41 ≤ 2 ^ t := Nat.pow_le_pow_right (by decide) ht
  have h41 : (2 : Nat) ^ 41 = 2199023255552 := by norm_num
  rw [h41] at hpow
  show 0x10000000000 < L ^^^ m
  exact Nat.lt_of_lt_of_le (by decide) (Nat.le_trans hpow hge)

/-- When a lane of the mask `AesEncrypt(schedule, ctr)` has a set bit and a clear
bit among its bits 41 to 63, the size that `AesGcmDecrypt` decodes in that lane
is above the ceiling of line 81, whatever the blob: the lane that `loadu64` reads
is a sign-extended 32-bit value. -/
theorem openSizes_above_ceiling (prim : Primitives AesKeySchedule) (schedule : AesKeySchedule)
    (buffer iv : Span) :
    (2 ^ 41 ≤ (prim.AesEncrypt schedule (initialCounter prim iv)).d0 →
      (prim.AesEncrypt schedule (initialCounter prim iv)).d0 < 2 ^ 64 - 2 ^ 41 →
      (openSizes prim schedule buffer iv).d0 > 0x10000000000) ∧
    (2 ^ 41 ≤ (prim.AesEncrypt schedule (initialCounter prim iv)).d1 →
      (prim.AesEncrypt schedule (initialCounter prim iv)).d1 < 2 ^ 64 - 2 ^ 41 →
      (openSizes prim schedule buffer iv).d1 > 0x10000000000) := by
  have r0 := loadu64_range buffer (buffer.size - 32)
  have r1 := loadu64_range buffer (buffer.size - 32 + 8)
  exact ⟨fun h1 h2 => xor_above_ceiling _ _ r0.1 r0.2 h1 h2,
    fun h1 h2 => xor_above_ceiling _ _ r1.1 r1.2 h1 h2⟩

/-- What `AesGcmDecrypt` decodes from the length block of a sealed blob, when the
inputs are shorter than `2 ^ 27` bytes and the lanes of the mask
`AesEncrypt(schedule, ctr)` are below `2 ^ 31`, so that the stored lanes are read
back as they were written: the two bit lengths of line 62. -/
theorem openSizes_sealed (prim : Primitives AesKeySchedule)
    (hash0 : M128) (schedule : AesKeySchedule) (plaintext additional iv : Span)
    (hiv : iv.size = 12) (hp : plaintext.size < 2 ^ 27) (ha : additional.size < 2 ^ 27)
    (hm0 : (prim.AesEncrypt schedule (initialCounter prim iv)).d0 < 2 ^ 31)
    (hm1 : (prim.AesEncrypt schedule (initialCounter prim iv)).d1 < 2 ^ 31)
    (blob : List Nat)
    (hblob : AesGcmEncrypt prim hash0 schedule plaintext additional iv = Except.ok blob)
    (past : Nat → Nat) :
    openSizes prim schedule ⟨blob, past⟩ iv
      = ⟨(additional.size <<< 3) % 2 ^ 64, (plaintext.size <<< 3) % 2 ^ 64⟩ := by
  have hsize : plaintext.size + additional.size < 2 ^ 63 := by omega
  rw [sealed_blob_eq prim hash0 schedule plaintext additional iv hiv hsize] at hblob
  injection hblob with hblob
  obtain ⟨_, hlen⟩ := sealBody_spec prim hash0 schedule plaintext additional iv
  rw [sealedSize_eq _ _ hsize] at hlen
  have hr : roundUp16 additional.size + roundUp16 plaintext.size + 32 < 2 ^ 64 := by
    unfold roundUp16
    omega
  have hpre : ((sealBody prim hash0 schedule plaintext additional iv).2.2.2.take
      (roundUp16 additional.size + roundUp16 plaintext.size)).length
      = roundUp16 additional.size + roundUp16 plaintext.size := by
    rw [List.length_take, hlen]
    omega
  generalize (sealBody prim hash0 schedule plaintext additional iv).2.2.2.take
      (roundUp16 additional.size + roundUp16 plaintext.size) = pre at hblob hpre
  have hbl : blob.length = pre.length + 32 := by
    rw [← hblob]
    simp [blockBytes_length]
  unfold openSizes
  have hoff : (Span.mk blob past).size - 32 = pre.length := by
    show blob.length - 32 = pre.length
    omega
  rw [hoff]
  subst hblob
  have b0 : (additional.size <<< 3) % 2 ^ 64 < 2 ^ 31 := by
    rw [Nat.shiftLeft_eq]
    omega
  have b1 : (plaintext.size <<< 3) % 2 ^ 64 < 2 ^ 31 := by
    rw [Nat.shiftLeft_eq]
    omega
  have s0 : (sealSizes prim schedule plaintext additional iv).d0 < 2 ^ 31 :=
    Nat.xor_lt_two_pow b0 hm0
  have s1 : (sealSizes prim schedule plaintext additional iv).d1 < 2 ^ 31 :=
    Nat.xor_lt_two_pow b1 hm1
  rw [load_blockBytes pre _ past _ s0 s1 (by omega)]
  unfold sealSizes M128.xor
  simp only
  rw [xor_xor_cancel, xor_xor_cancel]

/-- With a 12-byte nonce `AesGcmEncrypt` returns the buffer after the two stores of
lines 64 and 66. -/
theorem AesGcmEncrypt_ok (prim : Primitives AesKeySchedule) (hash0 : M128)
    (schedule : AesKeySchedule) (plaintext additional iv : Span) (hiv : iv.size = 12) :
    AesGcmEncrypt prim hash0 schedule plaintext additional iv
      = Except.ok
          (store
            (store (sealBody prim hash0 schedule plaintext additional iv).2.2.2
              (sealBody prim hash0 schedule plaintext additional iv).1
              (sealSizes prim schedule plaintext additional iv))
            ((sealBody prim hash0 schedule plaintext additional iv).1 + 16)
            (sealTag prim hash0 schedule plaintext additional iv)) := by
  unfold AesGcmEncrypt
  simp [hiv]

theorem sealedSample_eq :
    AesGcmEncrypt samplePrimitives ⟨0, 0⟩ () samplePlaintext emptyInput sampleNonce
      = Except.ok sealedSample := by
  rw [AesGcmEncrypt_ok samplePrimitives ⟨0, 0⟩ () samplePlaintext emptyInput sampleNonce
    (by decide)]
  exact congrArg Except.ok (by decide)

set_option maxRecDepth 4000 in
theorem sealedLong_eq :
    AesGcmEncrypt samplePrimitives ⟨0, 0⟩ () longPlaintext emptyInput sampleNonce
      = Except.ok sealedLong := by
  rw [AesGcmEncrypt_ok samplePrimitives ⟨0, 0⟩ () longPlaintext emptyInput sampleNonce
    (by decide)]
  exact congrArg Except.ok (by decide)

/-- C8 (sealed blob size). With a 12-byte nonce (and inputs of fewer than `2 ^ 63`
bytes together) `AesGcmEncrypt` returns a blob of exactly
`roundUp16(len A) + roundUp16(len P) + 32` bytes, whose last 16 bytes are the
stored tag and whose 16 bytes before them are the stored length block;
`roundUp16 n` is the least multiple of 16 that is at least `n`. -/
theorem sealed_blob_size (prim : Primitives AesKeySchedule) (hash0 : M128)
    (schedule : AesKeySchedule) (plaintext additional iv : Span) (hiv : iv.size = 12)
    (hsize : plaintext.size + additional.size < 2 ^ 63) :
    ∃ blob, AesGcmEncrypt prim hash0 schedule plaintext additional iv = Except.ok blob ∧
      blob.length = roundUp16 additional.size + roundUp16 plaintext.size + 32 ∧
      blob.drop (blob.length - 16)
        = blockBytes (sealTag prim hash0 schedule plaintext additional iv) ∧
      (blob.drop (blob.length - 32)).take 16
        = blockBytes (sealSizes prim schedule plaintext additional iv) ∧
      (∀ n, 16 ∣ roundUp16 n ∧ n ≤ roundUp16 n ∧ ∀ m, 16 ∣ m → n ≤ m → roundUp16 n ≤ m) := by
  obtain ⟨_, hlen⟩ := sealBody_spec prim hash0 schedule plaintext additional iv
  rw [sealedSize_eq _ _ hsize] at hlen
  have hpre : ((sealBody prim hash0 schedule plaintext additional iv).2.2.2.take
      (roundUp16 additional.size + roundUp16 plaintext.size)).length
      = roundUp16 additional.size + roundUp16 plaintext.size := by
    rw [List.length_take, hlen]
    omega
  refine ⟨_, sealed_blob_eq prim hash0 schedule plaintext additional iv hiv hsize, ?_, ?_, ?_,
    roundUp16_least⟩
  · simp only [List.length_append, blockBytes_length, hpre]
  · generalize (sealBody prim hash0 schedule plaintext additional iv).2.2.2.take
      (roundUp16 additional.size + roundUp16 plaintext.size) = pre at hpre
    have e : (pre ++ blockBytes (sealSizes prim schedule plaintext additional iv)
        ++ blockBytes (sealTag prim hash0 schedule plaintext additional iv)).length - 16
        = (pre ++ blockBytes (sealSizes prim schedule plaintext additional iv)).length := by
      simp [blockBytes_length]
    rw [e, List.drop_left]
  · generalize (sealBody prim hash0 schedule plaintext additional iv).2.2.2.take
      (roundUp16 additional.size + roundUp16 plaintext.size) = pre at hpre
    have e : (pre ++ blockBytes (sealSizes prim schedule plaintext additional iv)
        ++ blockBytes (sealTag prim hash0 schedule plaintext additional iv)).length - 32
        = pre.length := by
      simp [blockBytes_length]
    rw [e, List.append_assoc, List.drop_left]
    apply List.take_left'
    exact blockBytes_length _

end SealClaims

section RoundTripClaims

variable {AesKeySchedule : Type}

theorem sealed_blob_size_witness :
    sampleNonce.size = 12 ∧ samplePlaintext.size + emptyInput.size < 2 ^ 63 ∧
    roundUp16 emptyInput.size + roundUp16 samplePlaintext.size + 32 = 48 ∧
    ∃ blob, AesGcmEncrypt samplePrimitives ⟨0, 0⟩ () samplePlaintext emptyInput sampleNonce
        = Except.ok blob ∧
      blob.length = roundUp16 emptyInput.size + roundUp16 samplePlaintext.size + 32 ∧
      blob.drop (blob.length - 16)
        = blockBytes (sealTag samplePrimitives ⟨0, 0⟩ () samplePlaintext emptyInput
            sampleNonce) ∧
      (blob.drop (blob.length - 32)).take 16
        = blockBytes (sealSizes samplePrimitives () samplePlaintext emptyInput sampleNonce) ∧
      (∀ n, 16 ∣ roundUp16 n ∧ n ≤ roundUp16 n ∧ ∀ m, 16 ∣ m → n ≤ m → roundUp16 n ≤ m) :=
  ⟨by decide, by decide, by decide,
    sealed_blob_size samplePrimitives ⟨0, 0⟩ () samplePlaintext emptyInput sampleNonce
      (by decide) (by decide)⟩

/-- C9 (evaluation at the failing input). With a 12-byte nonce, an empty plaintext
and empty associated data, `AesGcmEncrypt` returns a blob of 32 bytes, and
`AesGcmDecrypt` rejects that blob at its length check of line 73. -/
theorem sealed_empty_blob (prim : Primitives AesKeySchedule) (hash0 hash1 : M128)
    (schedule : AesKeySchedule) (plaintext additional iv : Span) (hiv : iv.size = 12)
    (hp : plaintext.size = 0) (ha : additional.size = 0) :
    ∃ blob, AesGcmEncrypt prim hash0 schedule plaintext additional iv = Except.ok blob ∧
      blob.length = 32 ∧
      ∀ past, formatRejected ⟨blob, past⟩ ∧
        AesGcmDecrypt prim hash1 schedule ⟨blob, past⟩ iv = Except.ok ([], []) := by
  have hsize : plaintext.size + additional.size < 2 ^ 63 := by
    rw [hp, ha]
    decide
  obtain ⟨blob, hblob, hlen⟩ :=
    sealed_blob_length prim hash0 schedule plaintext additional iv hiv hsize
  rw [hp, ha] at hlen
  have h32 : blob.length = 32 := by
    rw [hlen]
    decide
  refine ⟨blob, hblob, h32, ?_⟩
  intro past
  have hf : formatRejected ⟨blob, past⟩ := by
    left
    show blob.length < 48
    omega
  exact ⟨hf, open_of_formatRejected prim hash1 schedule ⟨blob, past⟩ iv hiv hf⟩

theorem sealed_empty_blob_witness :
    sampleNonce.size = 12 ∧ emptyInput.size = 0 ∧
    ∃ blob, AesGcmEncrypt samplePrimitives ⟨0, 0⟩ () emptyInput emptyInput sampleNonce
        = Except.ok blob ∧
      blob.length = 32 ∧
      ∀ past, formatRejected ⟨blob, past⟩ ∧
        AesGcmDecrypt samplePrimitives ⟨0, 0⟩ () ⟨blob, past⟩ sampleNonce
          = Except.ok ([], []) :=
  ⟨by decide, by decide,
    sealed_empty_blob samplePrimitives ⟨0, 0⟩ ⟨0, 0⟩ () emptyInput emptyInput sampleNonce
      (by decide) (by decide) (by decide)⟩

/-- C1 (evaluation at the failing input). With a 12-byte nonce, a 16-byte plaintext
and empty associated data, `AesGcmEncrypt` returns a 48-byte blob that
`AesGcmDecrypt` rejects: it returns the failure result, not the plaintext. This
holds for every cipher whose mask block `AesEncrypt(schedule, ctr)` has both lanes
below `2 ^ 31`, the lanes that `loadu64` reads back as they were stored:
`AesGcmDecrypt` then decodes `asize = 0` and `psize = 128`, the bit length, and the
block-count check of line 83 fails. It also holds for every cipher whose mask
block has a lane with a set bit and a clear bit among the bits 41 to 63: the size
decoded in that lane is above the ceiling of line 81. -/
theorem seal_then_open_rejected (prim : Primitives AesKeySchedule)
    (hash0 hash1 : M128) (schedule : AesKeySchedule) (plaintext additional iv : Span)
    (hiv : iv.size = 12) (hp : plaintext.size = 16) (ha : additional.size = 0)
    (hmask :
      ((prim.AesEncrypt schedule (initialCounter prim iv)).d0 < 2 ^ 31 ∧
        (prim.AesEncrypt schedule (initialCounter prim iv)).d1 < 2 ^ 31) ∨
      (2 ^ 41 ≤ (prim.AesEncrypt schedule (initialCounter prim iv)).d0 ∧
        (prim.AesEncrypt schedule (initialCounter prim iv)).d0 < 2 ^ 64 - 2 ^ 41) ∨
      (2 ^ 41 ≤ (prim.AesEncrypt schedule (initialCounter prim iv)).d1 ∧
        (prim.AesEncrypt schedule (initialCounter prim iv)).d1 < 2 ^ 64 - 2 ^ 41)) :
    ∃ blob, AesGcmEncrypt prim hash0 schedule plaintext additional iv = Except.ok blob ∧
      blob.length = 48 ∧
      ∀ past,
        ((prim.AesEncrypt schedule (initialCounter prim iv)).d0 < 2 ^ 31 →
          (prim.AesEncrypt schedule (initialCounter prim iv)).d1 < 2 ^ 31 →
          openSizes prim schedule ⟨blob, past⟩ iv = ⟨0, 128⟩) ∧
        AesGcmDecrypt prim hash1 schedule ⟨blob, past⟩ iv = Except.ok ([], []) ∧
        AesGcmDecrypt prim hash1 schedule ⟨blob, past⟩ iv
          ≠ Except.ok (plaintext.data, additional.data) := by
  have hsize : plaintext.size + additional.size < 2 ^ 63 := by
    rw [hp, ha]
    decide
  obtain ⟨blob, hblob, hlen⟩ :=
    sealed_blob_length prim hash0 schedule plaintext additional iv hiv hsize
  rw [hp, ha] at hlen
  have h48 : blob.length = 48 := by
    rw [hlen]
    decide
  refine ⟨blob, hblob, h48, ?_⟩
  intro past
  have hsizes : (prim.AesEncrypt schedule (initialCounter prim iv)).d0 < 2 ^ 31 →
      (prim.AesEncrypt schedule (initialCounter prim iv)).d1 < 2 ^ 31 →
      openSizes prim schedule ⟨blob, past⟩ iv = ⟨0, 128⟩ := by
    intro hm0 hm1
    rw [openSizes_sealed prim hash0 schedule plaintext additional iv hiv (by omega) (by omega)
      hm0 hm1 blob hblob past, hp, ha]
    decide
  have hrej : sizesRejected (openSizes prim schedule ⟨blob, past⟩ iv).d0
      (openSizes prim schedule ⟨blob, past⟩ iv).d1 (Span.mk blob past).size := by
    rcases hmask with ⟨hm0, hm1⟩ | ⟨h1, h2⟩ | ⟨h1, h2⟩
    · rw [hsizes hm0 hm1]
      show sizesRejected 0 128 blob.length
      rw [h48]
      decide
    · exact Or.inl ((openSizes_above_ceiling prim schedule ⟨blob, past⟩ iv).1 h1 h2)
    · exact Or.inr (Or.inl ((openSizes_above_ceiling prim schedule ⟨blob, past⟩ iv).2 h1 h2))
  have hres : AesGcmDecrypt prim hash1 schedule ⟨blob, past⟩ iv = Except.ok ([], []) :=
    open_of_sizesRejected prim hash1 schedule ⟨blob, past⟩ iv hiv hrej
  refine ⟨hsizes, hres, ?_⟩
  rw [hres]
  intro heq
  injection heq with heq
  injection heq with h1 h2
  have : plaintext.data.length = 16 := hp
  rw [← h1] at this
  simp at this

theorem seal_then_open_rejected_witness :
    sampleNonce.size = 12 ∧ samplePlaintext.size = 16 ∧ emptyInput.size = 0 ∧
    ((samplePrimitives.AesEncrypt () (initialCounter samplePrimitives sampleNonce)).d0
        < 2 ^ 31 ∧
      (samplePrimitives.AesEncrypt () (initialCounter samplePrimitives sampleNonce)).d1
        < 2 ^ 31) ∧
    (2 ^ 41 ≤ (widePrimitives.AesEncrypt () (initialCounter widePrimitives sampleNonce)).d0 ∧
      (widePrimitives.AesEncrypt () (initialCounter widePrimitives sampleNonce)).d0
        < 2 ^ 64 - 2 ^ 41) ∧
    (∃ blob, AesGcmEncrypt samplePrimitives ⟨0, 0⟩ () samplePlaintext emptyInput sampleNonce
        = Except.ok blob ∧
      blob.length = 48 ∧
      ∀ past,
        ((samplePrimitives.AesEncrypt () (initialCounter samplePrimitives sampleNonce)).d0
            < 2 ^ 31 →
          (samplePrimitives.AesEncrypt () (initialCounter samplePrimitives sampleNonce)).d1
            < 2 ^ 31 →
          openSizes samplePrimitives () ⟨blob, past⟩ sampleNonce = ⟨0, 128⟩) ∧
        AesGcmDecrypt samplePrimitives ⟨0, 0⟩ () ⟨blob, past⟩ sampleNonce
          = Except.ok ([], []) ∧
        AesGcmDecrypt samplePrimitives ⟨0, 0⟩ () ⟨blob, past⟩ sampleNonce
          ≠ Except.ok (samplePlaintext.data, emptyInput.data)) ∧
    (∃ blob, AesGcmEncrypt widePrimitives ⟨0, 0⟩ () samplePlaintext emptyInput sampleNonce
        = Except.ok blob ∧
      blob.length = 48 ∧
      ∀ past,
        ((widePrimitives.AesEncrypt () (initialCounter widePrimitives sampleNonce)).d0
            < 2 ^ 31 →
          (widePrimitives.AesEncrypt () (initialCounter widePrimitives sampleNonce)).d1
            < 2 ^ 31 →
          openSizes widePrimitives () ⟨blob, past⟩ sampleNonce = ⟨0, 128⟩) ∧
        AesGcmDecrypt widePrimitives ⟨0, 0⟩ () ⟨blob, past⟩ sampleNonce
          = Except.ok ([], []) ∧
        AesGcmDecrypt widePrimitives ⟨0, 0⟩ () ⟨blob, past⟩ sampleNonce
          ≠ Except.ok (samplePlaintext.data, emptyInput.data)) :=
  ⟨by decide, by decide, by decide, by decide, by decide,
    seal_then_open_rejected samplePrimitives ⟨0, 0⟩ ⟨0, 0⟩ ()
      samplePlaintext emptyInput sampleNonce (by decide) (by decide) (by decide)
      (Or.inl (by decide)),
    seal_then_open_rejected widePrimitives ⟨0, 0⟩ ⟨0, 0⟩ ()
      samplePlaintext emptyInput sampleNonce (by decide) (by decide) (by decide)
      (Or.inr (Or.inl (by decide)))⟩

end RoundTripClaims

section TamperLemmas

variable {AesKeySchedule : Type}

theorem getD_set_eq (l : List Nat) (i a j : Nat) (hi : i < l.length) :
    (l.set i a).getD j 0 = if j = i then a else l.getD j 0 := by
  simp only [List.getD_eq_getElem?_getD, List.getElem?_set]
  by_cases h : i = j
  · subst h
    simp [hi]
  · have h2 : ¬ j = i := fun e => h e.symm
    simp [h, h2]

theorem blocksFrom_congr (s1 s2 : Span) :
    ∀ count offset, (∀ j, j < count → load s1 (offset + 16 * j) = load s2 (offset + 16 * j)) →
      blocksFrom s1 offset count = blocksFrom s2 offset count := by
  intro count
  induction count with
  | zero => intro offset _; rfl
  | succ count ih =>
    intro offset h
    rw [blocksFrom, blocksFrom]
    have h0 := h 0 (by omega)
    simp only [Nat.mul_zero, Nat.add_zero] at h0
    rw [h0, ih (offset + 16) (fun j hj => by
      have := h (j + 1) (by omega)
      have e : offset + 16 * (j + 1) = offset + 16 + 16 * j := by omega
      rwa [e] at this)]

/-- An accepted blob gets the plaintext of `psize` bytes and the view of `asize`
bytes. -/
theorem open_of_accepted (prim : Primitives AesKeySchedule) (hash0 : M128)
    (schedule : AesKeySchedule) (buffer iv : Span) (hiv : iv.size = 12)
    (hA : Accepted prim hash0 schedule buffer iv) :
    AesGcmDecrypt prim hash0 schedule buffer iv
      = Except.ok (resize (openBody prim hash0 schedule buffer iv).2.2.2
          (openSizes prim schedule buffer iv).d1,
        viewFront buffer (openSizes prim schedule buffer iv).d0) := by
  obtain ⟨hf, hs, ht⟩ := hA
  unfold AesGcmDecrypt
  simp [hiv, hf, hs, ht]

/-- The result for an accepted blob is not the failure result: one of the two
decoded sizes is positive. -/
theorem accepted_ne_failure (prim : Primitives AesKeySchedule) (hash0 : M128)
    (schedule : AesKeySchedule) (buffer iv : Span) (hiv : iv.size = 12)
    (hA : Accepted prim hash0 schedule buffer iv) :
    AesGcmDecrypt prim hash0 schedule buffer iv ≠ Except.ok ([], []) := by
  rw [open_of_accepted prim hash0 schedule buffer iv hiv hA]
  obtain ⟨hf, hs, _⟩ := hA
  have hpos : 0 < (openSizes prim schedule buffer iv).d1 ∨
      0 < (openSizes prim schedule buffer iv).d0 := by
    unfold formatRejected at hf
    unfold sizesRejected blockCount at hs
    omega
  intro heq
  injection heq with heq
  injection heq with h1 h2
  have l1 := resize_length (openBody prim hash0 schedule buffer iv).2.2.2
    (openSizes prim schedule buffer iv).d1
  have l2 := viewFront_length buffer (openSizes prim schedule buffer iv).d0
  rw [h1] at l1
  rw [h2] at l2
  simp only [List.length_nil] at l1 l2
  omega

/-- The checks of `AesGcmDecrypt` read a blob only through `load` at the offsets
`0, 16, 32, ...`: a second blob of the same length whose blocks load to the
same values decodes to the same sizes and passes the same checks. -/
theorem accepted_congr (prim : Primitives AesKeySchedule) (hash0 : M128)
    (schedule : AesKeySchedule) (buffer tampered iv : Span)
    (hsize : tampered.size = buffer.size)
    (hload : ∀ j, j < buffer.size / 16 → load tampered (16 * j) = load buffer (16 * j))
    (hacc : Accepted prim hash0 schedule buffer iv) :
    openSizes prim schedule tampered iv = openSizes prim schedule buffer iv ∧
    Accepted prim hash0 schedule tampered iv := by
  obtain ⟨hf, hs, ht⟩ := hacc
  have hf0 := hf
  unfold formatRejected at hf0
  have e32 : buffer.size - 32 = 16 * (buffer.size / 16 - 2) := by omega
  have e16 : buffer.size - 16 = 16 * (buffer.size / 16 - 1) := by omega
  have l32 : load tampered (tampered.size - 32) = load buffer (buffer.size - 32) := by
    rw [hsize, e32]
    exact hload _ (by omega)
  have l16 : load tampered (tampered.size - 16) = load buffer (buffer.size - 16) := by
    rw [hsize, e16]
    exact hload _ (by omega)
  have hsizes : openSizes prim schedule tampered iv = openSizes prim schedule buffer iv := by
    unfold openSizes
    rw [l32]
  have hf2 : ¬ formatRejected tampered := by
    unfold formatRejected
    rw [hsize]
    exact hf0
  have hs2 : ¬ sizesRejected (openSizes prim schedule tampered iv).d0
      (openSizes prim schedule tampered iv).d1 tampered.size := by
    rw [hsizes, hsize]
    exact hs
  refine ⟨hsizes, hf2, hs2, ?_⟩
  have t1 := openTag_eq prim hash0 schedule buffer iv hf hs
  have t2 := openTag_eq prim hash0 schedule tampered iv hf2 hs2
  have hb : blocksFrom tampered 0 (tampered.size / 16 - 1)
      = blocksFrom buffer 0 (buffer.size / 16 - 1) := by
    rw [hsize]
    apply blocksFrom_congr
    intro j hj
    rw [Nat.zero_add]
    exact hload j (by omega)
  unfold tagRejected at ht ⊢
  rw [t2, hb, ← t1, l16]
  exact ht

theorem testBit_signExtend32 (x i : Nat) :
    (signExtend32 x).testBit i
      = if i < 32 then x.testBit i else (decide (i < 64) && x.testBit 31) := by
  have h31 : x.testBit 31 = (x % 2 ^ 32).testBit 31 := by
    rw [Nat.testBit_mod_two_pow]
    simp
  have hy : x % 2 ^ 32 < 2 ^ 32 := Nat.mod_lt _ (by decide)
  unfold signExtend32
  by_cases hlt : x % 2 ^ 32 < 2 ^ 31
  · rw [if_pos hlt, Nat.testBit_mod_two_pow]
    have hf : x.testBit 31 = false := by
      rw [h31]
      exact Nat.testBit_lt_two_pow hlt
    by_cases hi : i < 32
    · simp [hi]
    · simp [hi, hf]
  · rw [if_neg hlt]
    have ht : x.testBit 31 = true := by
      rw [h31]
      have e : x % 2 ^ 32 = 2 ^ 31 + (x % 2 ^ 32 - 2 ^ 31) := by omega
      rw [e, Nat.testBit_two_pow_add_eq, Nat.testBit_lt_two_pow (by omega)]
      rfl
    have e : x % 2 ^ 32 + (2 ^ 64 - 2 ^ 32) = 2 ^ 32 * (2 ^ 32 - 1) + x % 2 ^ 32 := by omega
    rw [e, Nat.testBit_mul_pow_two_add _ hy, Nat.testBit_two_pow_sub_one,
      Nat.testBit_mod_two_pow]
    by_cases hi : i < 32
    · simp [hi]
    · simp only [hi, if_false, ht, Bool.and_true]
      by_cases h64 : i < 64
      · rw [decide_eq_true h64, decide_eq_true (by omega : i - 32 < 32)]
      · rw [decide_eq_false h64, decide_eq_false (by omega : ¬ i - 32 < 32)]

theorem signExtend32_or (x y : Nat) :
    signExtend32 x ||| signExtend32 y = signExtend32 (x ||| y) := by
  apply Nat.eq_of_testBit_eq
  intro i
  rw [Nat.testBit_or, testBit_signExtend32, testBit_signExtend32, testBit_signExtend32,
    Nat.testBit_or, Nat.testBit_or]
  by_cases hi : i < 32
  · simp only [hi, if_true]
  · simp only [hi, if_false]
    rw [Bool.and_or_distrib_left]

theorem shiftLeft_or (x y s : Nat) : (x ||| y) <<< s = x <<< s ||| y <<< s := by
  apply Nat.eq_of_testBit_eq
  intro i
  simp only [Nat.testBit_or, Nat.testBit_shiftLeft]
  rw [Bool.and_or_distrib_left]

/-- Two bytes that `loadu64` shifts to the same position contribute the shifted
OR of the two. -/
theorem shiftedByte_or (b c n : Nat) :
    shiftedByte b n ||| shiftedByte c n = shiftedByte (b ||| c) n := by
  unfold shiftedByte
  rw [signExtend32_or, shiftLeft_or]

/-- The bytes `n` and `n + 4` of a lane are shifted by the same count. -/
theorem shiftedByte_overlap (x n m : Nat) (hn : n < 8) (hm : m < 8) (h : n % 4 = m % 4) :
    shiftedByte x n = shiftedByte x m := by
  unfold shiftedByte
  have e : (8 * (7 - n)) % 32 = (8 * (7 - m)) % 32 := by omega
  rw [e]

/-- Inverting a bit of a byte does not change its OR with a byte that has the bit
set. -/
theorem flip_absorbed (b c k : Nat) (h : c.testBit k = true) :
    (b ^^^ 2 ^ k) ||| c = b ||| c := by
  apply Nat.eq_of_testBit_eq
  intro i
  rw [Nat.testBit_or, Nat.testBit_or, Nat.testBit_xor, Nat.testBit_two_pow]
  by_cases hik : k = i
  · subst hik
    rw [h, Bool.or_true, Bool.or_true]
  · simp [hik]

theorem orFold_testBit (g : Nat → Nat) (t : Nat) :
    ∀ (l : List Nat) (v : Nat),
      (l.foldl (fun value n => value ||| g n) v).testBit t
        = (v.testBit t || l.any (fun n => (g n).testBit t)) := by
  intro l
  induction l with
  | nil => intro v; simp
  | cons n l ih =>
    intro v
    rw [List.foldl_cons, ih, Nat.testBit_or, List.any_cons, Bool.or_assoc]

theorem loadu64_testBit (s : Span) (offset t : Nat) :
    (loadu64 s offset).testBit t
      = (List.range (clampBytes s.size offset)).any
          (fun n => (shiftedByte (s.index (offset + n)) n).testBit t) := by
  have h := orFold_testBit (fun n => shiftedByte (s.index (offset + n)) n) t
    (List.range (clampBytes s.size offset)) 0
  rw [Nat.zero_testBit, Bool.false_or] at h
  exact h

theorem loadu64_set_bits (l : List Nat) (p p2 : Nat → Nat) (i v q offset t : Nat)
    (h : offset + 8 ≤ l.length) (hs : l.length < 2 ^ 64)
    (hi : offset ≤ i ∧ i < offset + 8) (hq : offset ≤ q ∧ q < offset + 8) (hne : i ≠ q)
    (hm : ((shiftedByte v (i - offset)).testBit t
        || (shiftedByte (l.getD q 0) (q - offset)).testBit t)
      = ((shiftedByte (l.getD i 0) (i - offset)).testBit t
        || (shiftedByte (l.getD q 0) (q - offset)).testBit t)) :
    (loadu64 ⟨l.set i v, p2⟩ offset).testBit t = (loadu64 ⟨l, p⟩ offset).testBit t := by
  have hlen : (l.set i v).length = l.length := List.length_set _ _ _
  have hil : i < l.length := by omega
  have hidx1 : ∀ n, n < 8 → (Span.mk l p).index (offset + n) = l.getD (offset + n) 0 :=
    fun n hn => Span.index_of_lt _ _ (by show offset + n < l.length; omega)
  have hidx2 : ∀ n, n < 8 → (Span.mk (l.set i v) p2).index (offset + n)
      = if offset + n = i then v else l.getD (offset + n) 0 := by
    intro n hn
    rw [Span.index_of_lt _ _ (by show offset + n < (l.set i v).length; omega)]
    exact getD_set_eq l i v _ hil
  have ei : offset + (i - offset) = i := by omega
  have eq : offset + (q - offset) = q := by omega
  have z1 : offset + 8 ≤ (Span.mk l p).size := h
  have z2 : (Span.mk l p).size < 2 ^ 64 := hs
  have z3 : offset + 8 ≤ (Span.mk (l.set i v) p2).size := by
    show offset + 8 ≤ (l.set i v).length
    omega
  have z4 : (Span.mk (l.set i v) p2).size < 2 ^ 64 := by
    show (l.set i v).length < 2 ^ 64
    omega
  rw [loadu64_testBit, loadu64_testBit,
    clampBytes_of_le (Span.mk (l.set i v) p2).size offset z3 z4,
    clampBytes_of_le (Span.mk l p).size offset z1 z2,
    Bool.eq_iff_iff, List.any_eq_true, List.any_eq_true]
  constructor
  · rintro ⟨n, hn, hbit⟩
    have hn8 : n < 8 := List.mem_range.mp hn
    rw [hidx2 n hn8] at hbit
    by_cases hni : offset + n = i
    · rw [if_pos hni] at hbit
      have en : n = i - offset := by omega
      subst en
      rw [hbit, Bool.true_or] at hm
      rcases Bool.or_eq_true_iff.mp hm.symm with h1 | h1
      · refine ⟨i - offset, hn, ?_⟩
        rw [hidx1 _ hn8, ei]
        exact h1
      · refine ⟨q - offset, List.mem_range.mpr (by omega), ?_⟩
        rw [hidx1 _ (by omega), eq]
        exact h1
    · rw [if_neg hni] at hbit
      refine ⟨n, hn, ?_⟩
      rw [hidx1 n hn8]
      exact hbit
  · rintro ⟨n, hn, hbit⟩
    have hn8 : n < 8 := List.mem_range.mp hn
    rw [hidx1 n hn8] at hbit
    by_cases hni : offset + n = i
    · have en : n = i - offset := by omega
      subst en
      rw [ei] at hbit
      rw [hbit, Bool.true_or] at hm
      rcases Bool.or_eq_true_iff.mp hm with h1 | h1
      · refine ⟨i - offset, hn, ?_⟩
        rw [hidx2 _ hn8, if_pos ei]
        exact h1
      · refine ⟨q - offset, List.mem_range.mpr (by omega), ?_⟩
        rw [hidx2 _ (by omega), if_neg (by omega), eq]
        exact h1
    · refine ⟨n, hn, ?_⟩
      rw [hidx2 n hn8, if_neg hni]
      exact hbit

/-- Changing the byte at `i` of an in-range lane does not change what `loadu64`
returns when the new byte and the byte at `q`, which is shifted to the same
position, have the same OR as the old byte and the byte at `q`. -/
theorem loadu64_set (l : List Nat) (p p2 : Nat → Nat) (i v q offset : Nat)
    (h : offset + 8 ≤ l.length) (hs : l.length < 2 ^ 64)
    (hi : offset ≤ i ∧ i < offset + 8) (hq : offset ≤ q ∧ q < offset + 8)
    (hpart : (i - offset) % 4 = (q - offset) % 4) (hne : i ≠ q)
    (hor : v ||| l.getD q 0 = l.getD i 0 ||| l.getD q 0) :
    loadu64 ⟨l.set i v, p2⟩ offset = loadu64 ⟨l, p⟩ offset := by
  have a1 : q - offset < 8 := Nat.sub_lt_left_of_lt_add hq.1 hq.2
  have a2 : i - offset < 8 := Nat.sub_lt_left_of_lt_add hi.1 hi.2
  have hmerge : shiftedByte v (i - offset) ||| shiftedByte (l.getD q 0) (q - offset)
      = shiftedByte (l.getD i 0) (i - offset) ||| shiftedByte (l.getD q 0) (q - offset) := by
    rw [shiftedByte_overlap (l.getD q 0) (q - offset) (i - offset) a1 a2 hpart.symm,
      shiftedByte_or, shiftedByte_or, hor]
  apply Nat.eq_of_testBit_eq
  intro t
  have hm := congrArg (fun x : Nat => x.testBit t) hmerge
  simp only [Nat.testBit_or] at hm
  exact loadu64_set_bits l p p2 i v q offset t h hs hi hq hne hm

/-- Changing a byte outside an in-range lane does not change what `loadu64` returns
for the lane. -/
theorem loadu64_set_outside (l : List Nat) (p p2 : Nat → Nat) (i v offset : Nat)
    (h : offset + 8 ≤ l.length) (hs : l.length < 2 ^ 64)
    (hi : i < offset ∨ offset + 8 ≤ i) :
    loadu64 ⟨l.set i v, p2⟩ offset = loadu64 ⟨l, p⟩ offset := by
  have hlen : (l.set i v).length = l.length := List.length_set _ _ _
  have z1 : offset + 8 ≤ (Span.mk l p).size := h
  have z2 : (Span.mk l p).size < 2 ^ 64 := hs
  have z3 : offset + 8 ≤ (Span.mk (l.set i v) p2).size := by
    show offset + 8 ≤ (l.set i v).length
    omega
  have z4 : (Span.mk (l.set i v) p2).size < 2 ^ 64 := by
    show (l.set i v).length < 2 ^ 64
    omega
  rw [loadu64_eq (Span.mk (l.set i v) p2) offset z3 z4, loadu64_eq (Span.mk l p) offset z1 z2]
  have hg : ∀ n, n < 8 → (l.set i v).getD (offset + n) 0 = l.getD (offset + n) 0 := by
    intro n hn
    simp only [List.getD_eq_getElem?_getD, List.getElem?_set]
    rw [if_neg (by omega)]
  show (((((((0 ||| shiftedByte ((l.set i v).getD (offset + 0) 0) 0)
    ||| shiftedByte ((l.set i v).getD (offset + 1) 0) 1)
    ||| shiftedByte ((l.set i v).getD (offset + 2) 0) 2)
    ||| shiftedByte ((l.set i v).getD (offset + 3) 0) 3)
    ||| shiftedByte ((l.set i v).getD (offset + 4) 0) 4)
    ||| shiftedByte ((l.set i v).getD (offset + 5) 0) 5)
    ||| shiftedByte ((l.set i v).getD (offset + 6) 0) 6)
    ||| shiftedByte ((l.set i v).getD (offset + 7) 0) 7 = _
  rw [hg 0 (by omega), hg 1 (by omega), hg 2 (by omega), hg 3 (by omega), hg 4 (by omega),
    hg 5 (by omega), hg 6 (by omega), hg 7 (by omega)]

/-- Inverting bit `k` of the byte at `i` does not change any block that `load` reads
from a buffer whose length is a multiple of 16, when the byte at `overlapIndex i`
has bit `k` set. -/
theorem load_flip_overlap (l : List Nat) (p p2 : Nat → Nat) (i k : Nat)
    (hmod : l.length % 16 = 0) (hs : l.length < 2 ^ 64)
    (hbit : (l.getD (overlapIndex i) 0).testBit k = true) :
    ∀ j, j < l.length / 16 →
      load ⟨l.set i (l.getD i 0 ^^^ 2 ^ k), p2⟩ (16 * j) = load ⟨l, p⟩ (16 * j) := by
  have hlane : ∀ o, o % 8 = 0 → o + 8 ≤ l.length →
      loadu64 ⟨l.set i (l.getD i 0 ^^^ 2 ^ k), p2⟩ o = loadu64 ⟨l, p⟩ o := by
    intro o ho hle
    by_cases hin : o ≤ i ∧ i < o + 8
    · have hq : o ≤ overlapIndex i ∧ overlapIndex i < o + 8 := by
        unfold overlapIndex
        split <;> omega
      have hpart : (i - o) % 4 = (overlapIndex i - o) % 4 := by
        unfold overlapIndex
        split <;> omega
      have hne : i ≠ overlapIndex i := by
        unfold overlapIndex
        split <;> omega
      exact loadu64_set l p p2 i _ (overlapIndex i) o hle hs hin hq hpart hne
        (flip_absorbed _ _ k hbit)
    · exact loadu64_set_outside l p p2 i _ o hle hs (by omega)
  intro j hj
  unfold load
  rw [hlane (16 * j) (by omega) (by omega), hlane (16 * j + 8) (by omega) (by omega)]

end TamperLemmas

section TamperClaims

variable {AesKeySchedule : Type}

/-- C2 (evaluation at the failing inputs). `loadu64` ORs the bytes `n` and `n + 4`
of a lane into the same position, so `load` returns the same block when a bit is
inverted in a byte whose partner byte (`overlapIndex`) has that bit set, and
`AesGcmDecrypt` reads a blob only through `load`. With a 12-byte nonce, if
`AesGcmDecrypt` accepts a blob of fewer than `2 ^ 64` bytes, then for every index
`i` and bit `k` such that the byte at `overlapIndex i` has bit `k` set,
`AesGcmDecrypt` with the same key schedule, nonce and initial accumulator also
accepts the blob with bit `k` of the byte at `i` inverted: every block loads to
the same value, the decoded sizes are the same, and the result is not the failure
result. No hypothesis on the Galois hash is needed. -/
theorem tamper_undetected (prim : Primitives AesKeySchedule) (hash0 : M128)
    (schedule : AesKeySchedule) (buffer : Span) (past : Nat → Nat) (iv : Span) (i k : Nat)
    (hiv : iv.size = 12) (hsize : buffer.size < 2 ^ 64) (hi : i < buffer.size) (hk : k < 8)
    (hbit : (buffer.data.getD (overlapIndex i) 0).testBit k = true)
    (hacc : Accepted prim hash0 schedule buffer iv) :
    FlipAt buffer.data (buffer.data.set i (buffer.data.getD i 0 ^^^ 2 ^ k)) i k ∧
    (∀ j, j < buffer.size / 16 →
      load ⟨buffer.data.set i (buffer.data.getD i 0 ^^^ 2 ^ k), past⟩ (16 * j)
        = load buffer (16 * j)) ∧
    Accepted prim hash0 schedule
      ⟨buffer.data.set i (buffer.data.getD i 0 ^^^ 2 ^ k), past⟩ iv ∧
    openSizes prim schedule ⟨buffer.data.set i (buffer.data.getD i 0 ^^^ 2 ^ k), past⟩ iv
      = openSizes prim schedule buffer iv ∧
    AesGcmDecrypt prim hash0 schedule
      ⟨buffer.data.set i (buffer.data.getD i 0 ^^^ 2 ^ k), past⟩ iv ≠ Except.ok ([], []) := by
  have hmod : buffer.data.length % 16 = 0 := by
    have hf := hacc.1
    unfold formatRejected at hf
    show buffer.size % 16 = 0
    omega
  have hload : ∀ j, j < buffer.size / 16 →
      load ⟨buffer.data.set i (buffer.data.getD i 0 ^^^ 2 ^ k), past⟩ (16 * j)
        = load buffer (16 * j) :=
    load_flip_overlap buffer.data buffer.past past i k hmod hsize hbit
  have hsz : (Span.mk (buffer.data.set i (buffer.data.getD i 0 ^^^ 2 ^ k)) past).size
      = buffer.size := List.length_set _ _ _
  obtain ⟨hsizes, hacc2⟩ := accepted_congr prim hash0 schedule buffer
    ⟨buffer.data.set i (buffer.data.getD i 0 ^^^ 2 ^ k), past⟩ iv hsz hload hacc
  exact ⟨⟨hi, hk, rfl⟩, hload, hacc2, hsizes,
    accepted_ne_failure prim hash0 schedule _ iv hiv hacc2⟩

end TamperClaims

section TamperClaims2

variable {AesKeySchedule : Type}

theorem ghashInjective_samplePrimitives (H : M128) : GhashInjective samplePrimitives H := by
  refine ⟨?_, ?_⟩
  · intro acc b1 b2 h
    injection h with h0 h1
    have e1 : b1.d1 = b2.d1 := Nat.xor_left_inj.mp (Nat.xor_left_inj.mp h0)
    have e0 : b1.d0 = b2.d0 := Nat.xor_left_inj.mp (Nat.xor_left_inj.mp h1)
    cases b1
    cases b2
    simp only at e0 e1
    rw [e0, e1]
  · intro block a1 a2 h
    injection h with h0 h1
    have e1 : a1.d1 = a2.d1 := Nat.xor_right_inj.mp (Nat.xor_left_inj.mp h0)
    have e0 : a1.d0 = a2.d0 := Nat.xor_right_inj.mp (Nat.xor_left_inj.mp h1)
    cases a1
    cases a2
    simp only at e0 e1
    rw [e0, e1]

theorem tamper_undetected_witness :
    GhashInjective samplePrimitives (hashSubkey samplePrimitives ()) ∧
    sampleNonce.size = 12 ∧ (spanOf sampleBlob).size < 2 ^ 64 ∧ ByteList sampleBlob ∧
    (sampleBlob.getD (overlapIndex 0) 0).testBit 1 = true ∧
    Accepted samplePrimitives ⟨0, 0⟩ () (spanOf sampleBlob) sampleNonce ∧
    flippedBlob = sampleBlob.set 0 (sampleBlob.getD 0 0 ^^^ 2 ^ 1) ∧
    OneBitFlip sampleBlob flippedBlob ∧
    AesGcmDecrypt samplePrimitives ⟨0, 0⟩ () (spanOf sampleBlob) sampleNonce
      = Except.ok ([0, 0, 0], [10, 20, 30, 40, 50]) ∧
    AesGcmDecrypt samplePrimitives ⟨0, 0⟩ () (spanOf flippedBlob) sampleNonce
      = Except.ok ([0, 0, 0], [8, 20, 30, 40, 50]) ∧
    Accepted samplePrimitives ⟨0, 0⟩ () (spanOf flippedBlob) sampleNonce ∧
    AesGcmDecrypt samplePrimitives ⟨0, 0⟩ () (spanOf flippedBlob) sampleNonce
      ≠ Except.ok ([], []) :=
  ⟨ghashInjective_samplePrimitives _, by decide, by decide, by decide, by decide, by decide,
    rfl, ⟨0, 1, by decide, by decide, rfl⟩,
    congrArg Except.ok (by decide), congrArg Except.ok (by decide),
    (tamper_undetected samplePrimitives ⟨0, 0⟩ () (spanOf sampleBlob) (fun _ => 0)
      sampleNonce 0 1 (by decide) (by decide) (by decide) (by decide) (by decide)
      (by decide)).2.2.1,
    (tamper_undetected samplePrimitives ⟨0, 0⟩ () (spanOf sampleBlob) (fun _ => 0)
      sampleNonce 0 1 (by decide) (by decide) (by decide) (by decide) (by decide)
      (by decide)).2.2.2.2⟩

/-- C10 (counterexample). A call rejected by the length check and a call rejected
by the tag comparison return equal values: a 47-byte blob fails the check of line
73, the blob `wrongTagBlob` passes the checks of lines 73 and 81-83 and fails the
comparison of line 99, and `AesGcmDecrypt` returns the same value for both. -/
theorem failure_outcomes_coincide :
    formatRejected (spanOf shortBlob) ∧
    (¬ formatRejected (spanOf wrongTagBlob) ∧
      ¬ sizesRejected (openSizes samplePrimitives () (spanOf wrongTagBlob) sampleNonce).d0
          (openSizes samplePrimitives () (spanOf wrongTagBlob) sampleNonce).d1
          (spanOf wrongTagBlob).size ∧
      tagRejected samplePrimitives ⟨0, 0⟩ () (spanOf wrongTagBlob) sampleNonce) ∧
    AesGcmDecrypt samplePrimitives ⟨0, 0⟩ () (spanOf shortBlob) sampleNonce
      = AesGcmDecrypt samplePrimitives ⟨0, 0⟩ () (spanOf wrongTagBlob) sampleNonce := by
  have r1 : AesGcmDecrypt samplePrimitives ⟨0, 0⟩ () (spanOf shortBlob) sampleNonce
      = Except.ok ([], []) := by rfl
  have r2 : AesGcmDecrypt samplePrimitives ⟨0, 0⟩ () (spanOf wrongTagBlob) sampleNonce
      = Except.ok ([], []) := by rfl
  exact ⟨by decide, ⟨by decide, by decide, by decide⟩, r1.trans r2.symm⟩

/-- C10 (amended). With 12-byte nonces, a call of `AesGcmDecrypt` rejected by the
length check or the decoded-size check and a call rejected by the tag comparison
both return the pair of an empty plaintext and an empty view, so their results are
equal; neither is the error that a malformed nonce raises. -/
theorem failure_outcomes_equal (prim : Primitives AesKeySchedule) (hash1 hash2 : M128)
    (schedule1 schedule2 : AesKeySchedule) (buffer1 buffer2 iv1 iv2 : Span)
    (hiv1 : iv1.size = 12) (hiv2 : iv2.size = 12)
    (h1 : formatRejected buffer1 ∨
      sizesRejected (openSizes prim schedule1 buffer1 iv1).d0
        (openSizes prim schedule1 buffer1 iv1).d1 buffer1.size)
    (h2 : ¬ formatRejected buffer2 ∧
      ¬ sizesRejected (openSizes prim schedule2 buffer2 iv2).d0
        (openSizes prim schedule2 buffer2 iv2).d1 buffer2.size ∧
      tagRejected prim hash2 schedule2 buffer2 iv2) :
    AesGcmDecrypt prim hash1 schedule1 buffer1 iv1 = Except.ok ([], []) ∧
    AesGcmDecrypt prim hash2 schedule2 buffer2 iv2 = Except.ok ([], []) ∧
    AesGcmDecrypt prim hash1 schedule1 buffer1 iv1
      = AesGcmDecrypt prim hash2 schedule2 buffer2 iv2 ∧
    ∀ e, AesGcmDecrypt prim hash2 schedule2 buffer2 iv2 ≠ Except.error e := by
  have r1 : AesGcmDecrypt prim hash1 schedule1 buffer1 iv1 = Except.ok ([], []) := by
    rcases h1 with h | h
    · exact open_of_formatRejected prim hash1 schedule1 buffer1 iv1 hiv1 h
    · exact open_of_sizesRejected prim hash1 schedule1 buffer1 iv1 hiv1 h
  have r2 : AesGcmDecrypt prim hash2 schedule2 buffer2 iv2 = Except.ok ([], []) :=
    open_of_not_accepted prim hash2 schedule2 buffer2 iv2 hiv2 (fun hA => hA.2.2 h2.2.2)
  refine ⟨r1, r2, r1.trans r2.symm, ?_⟩
  intro e
  rw [r2]
  exact fun h => by injection h

theorem failure_outcomes_equal_witness :
    (formatRejected (spanOf shortBlob) ∨
      sizesRejected (openSizes samplePrimitives () (spanOf shortBlob) sampleNonce).d0
        (openSizes samplePrimitives () (spanOf shortBlob) sampleNonce).d1
        (spanOf shortBlob).size) ∧
    (¬ formatRejected (spanOf wrongTagBlob) ∧
      ¬ sizesRejected (openSizes samplePrimitives () (spanOf wrongTagBlob) sampleNonce).d0
          (openSizes samplePrimitives () (spanOf wrongTagBlob) sampleNonce).d1
          (spanOf wrongTagBlob).size ∧
      tagRejected samplePrimitives ⟨0, 0⟩ () (spanOf wrongTagBlob) sampleNonce) ∧
    AesGcmDecrypt samplePrimitives ⟨0, 0⟩ () (spanOf shortBlob) sampleNonce
      = Except.ok ([], []) ∧
    AesGcmDecrypt samplePrimitives ⟨0, 0⟩ () (spanOf wrongTagBlob) sampleNonce
      = Except.ok ([], []) :=
  ⟨Or.inl (by decide), ⟨by decide, by decide, by decide⟩,
    (failure_outcomes_equal samplePrimitives ⟨0, 0⟩ ⟨0, 0⟩ () () (spanOf shortBlob)
      (spanOf wrongTagBlob) sampleNonce sampleNonce (by decide) (by decide)
      (Or.inl (by decide)) ⟨by decide, by decide, by decide⟩).1,
    (failure_outcomes_equal samplePrimitives ⟨0, 0⟩ ⟨0, 0⟩ () () (spanOf shortBlob)
      (spanOf wrongTagBlob) sampleNonce sampleNonce (by decide) (by decide)
      (Or.inl (by decide)) ⟨by decide, by decide, by decide⟩).2.1⟩

end TamperClaims2

section CodecClaims

variable {AesKeySchedule : Type}

theorem Span.index_of_ge (s : Span) (i : Nat) (h : s.size ≤ i) : s.index i = s.past i := by
  simp [Span.index, Nat.not_lt.mpr h]

theorem clampBytes_of_short (size offset : Nat) (h1 : offset ≤ size) (h2 : size < offset + 8) :
    clampBytes size offset = size - offset := by
  unfold clampBytes
  omega

theorem clampBytes_of_gt (size offset : Nat) (h1 : size < offset) (h2 : offset ≤ size + 8) :
    clampBytes size offset = 8 := by
  unfold clampBytes
  omega

theorem loadu64Indices_of_le (size offset : Nat) (h : offset + 8 ≤ size) (hs : size < 2 ^ 64) :
    loadu64Indices size offset
      = [offset, offset + 1, offset + 2, offset + 3, offset + 4, offset + 5, offset + 6,
          offset + 7] := by
  unfold loadu64Indices
  rw [clampBytes_of_le _ _ h hs, range_eight]
  rfl

/-- A `loadu64` whose offset lies behind the end of the buffer (by at most 8) reads
eight bytes, all of them behind the end. -/
theorem loadu64_past (s : Span) (offset : Nat) (h1 : s.size < offset)
    (h2 : offset ≤ s.size + 8) :
    loadu64 s offset
      = (List.range 8).foldl
          (fun value n => value ||| shiftedByte (s.past (offset + n)) n) 0 := by
  unfold loadu64
  rw [clampBytes_of_gt _ _ h1 h2]
  dsimp only
  rw [range_eight]
  simp only [List.foldl_cons, List.foldl_nil]
  rw [s.index_of_ge (offset + 0) (by omega), s.index_of_ge (offset + 1) (by omega),
    s.index_of_ge (offset + 2) (by omega), s.index_of_ge (offset + 3) (by omega),
    s.index_of_ge (offset + 4) (by omega), s.index_of_ge (offset + 5) (by omega),
    s.index_of_ge (offset + 6) (by omega), s.index_of_ge (offset + 7) (by omega)]

/-- A `loadu64` at the very end of the buffer reads nothing and returns 0. -/
theorem loadu64_at_end (s : Span) : loadu64 s s.size = 0 := by
  unfold loadu64
  have : clampBytes s.size s.size = 0 := by
    unfold clampBytes
    omega
  rw [this]
  rfl

/-- The value of `load(iv, 12)` on a 12-byte nonce: lane 0 is zero and lane 1 is
made of the eight bytes found at `iv[20]`, ..., `iv[27]`, behind the nonce. -/
theorem load_nonce (iv : Span) (hiv : iv.size = 12) :
    load iv 12
      = ⟨0, (List.range 8).foldl
          (fun value n => value ||| shiftedByte (iv.past (20 + n)) n) 0⟩ := by
  unfold load
  have h0 : loadu64 iv 12 = 0 := by
    have := loadu64_at_end iv
    rwa [hiv] at this
  rw [h0, loadu64_past iv (12 + 8) (by omega) (by omega)]

/-- C20 (evaluation at the failing input). For an offset with
`offset + 16 ≤ buffer.size()`, `store(buffer, offset, v)` keeps the length of the
buffer and every byte outside `[offset, offset + 16)` and writes lane 0 and then
lane 1 of `v`, each most significant byte first. `load(buffer, offset)` on the
result returns `v` when both lanes are below `2 ^ 31`; it does not return `v` when
a lane of `v` is at least `2 ^ 31` and below `2 ^ 64 - 2 ^ 31`, because every lane
that `loadu64` returns is a sign-extended 32-bit value. -/
theorem store_then_load (b : List Nat) (past : Nat → Nat) (offset : Nat) (v : M128)
    (h : offset + 16 ≤ b.length) (hs : b.length < 2 ^ 64) :
    (store b offset v).length = b.length ∧
    (∀ j, j < offset ∨ offset + 16 ≤ j → (store b offset v)[j]? = b[j]?) ∧
    (∀ k, k < 8 →
      (store b offset v)[offset + k]? = some ((v.d0 >>> (8 * (7 - k))) % 256) ∧
      (store b offset v)[offset + 8 + k]? = some ((v.d1 >>> (8 * (7 - k))) % 256)) ∧
    (v.d0 < 2 ^ 31 → v.d1 < 2 ^ 31 → load ⟨store b offset v, past⟩ offset = v) ∧
    ((2 ^ 31 ≤ v.d0 ∧ v.d0 < 2 ^ 64 - 2 ^ 31) ∨ (2 ^ 31 ≤ v.d1 ∧ v.d1 < 2 ^ 64 - 2 ^ 31) →
      load ⟨store b offset v, past⟩ offset ≠ v) := by
  have hpre : (b.take offset).length = offset := by
    rw [List.length_take]
    omega
  have hmid : (b.take offset ++ blockBytes v).length = offset + 16 := by
    rw [List.length_append, hpre, blockBytes_length]
  refine ⟨store_length b offset v, ?_, ?_, ?_, ?_⟩
  · intro j hj
    rw [store_eq b offset v h hs]
    rcases hj with hj | hj
    · rw [List.getElem?_append_left (by omega), List.getElem?_append_left (by omega),
        List.getElem?_take_of_lt hj]
    · rw [List.getElem?_append_right (by omega), hmid, List.getElem?_drop]
      congr 1
      omega
  · intro k hk
    rw [store_eq b offset v h hs]
    have hb0 : (bytes64 v.d0)[k]? = some ((v.d0 >>> (8 * (7 - k))) % 256) := by
      unfold bytes64
      rw [List.getElem?_map, List.getElem?_range hk]
      rfl
    have hb1 : (bytes64 v.d1)[k]? = some ((v.d1 >>> (8 * (7 - k))) % 256) := by
      unfold bytes64
      rw [List.getElem?_map, List.getElem?_range hk]
      rfl
    refine ⟨?_, ?_⟩
    · rw [List.getElem?_append_left (by omega), List.getElem?_append_right (by omega), hpre]
      have e : offset + k - offset = k := by omega
      rw [e]
      unfold blockBytes
      rw [List.getElem?_append_left (by rw [bytes64_length]; exact hk)]
      exact hb0
    · rw [List.getElem?_append_left (by omega), List.getElem?_append_right (by omega), hpre]
      have e : offset + 8 + k - offset = 8 + k := by omega
      rw [e]
      unfold blockBytes
      rw [List.getElem?_append_right (by rw [bytes64_length]; omega), bytes64_length]
      have e2 : 8 + k - 8 = k := by omega
      rw [e2]
      exact hb1
  · intro hv0 hv1
    rw [store_eq b offset v h hs]
    have hlen : (b.take offset ++ blockBytes v ++ b.drop (offset + 16)).length < 2 ^ 64 := by
      rw [← store_eq b offset v h hs, store_length]
      exact hs
    have := load_blockBytes (b.take offset) (b.drop (offset + 16)) past v hv0 hv1 hlen
    rw [hpre] at this
    exact this
  · intro hv heq
    have r0 := loadu64_range ⟨store b offset v, past⟩ offset
    have r1 := loadu64_range ⟨store b offset v, past⟩ (offset + 8)
    have e0 : loadu64 ⟨store b offset v, past⟩ offset = v.d0 := congrArg M128.d0 heq
    have e1 : loadu64 ⟨store b offset v, past⟩ (offset + 8) = v.d1 := congrArg M128.d1 heq
    rw [e0] at r0
    rw [e1] at r1
    omega

theorem store_then_load_witness :
    8 + 16 ≤ (List.replicate 32 0xEE).length ∧ (List.replicate 32 0xEE).length < 2 ^ 64 ∧
    store (List.replicate 32 0xEE) 8 ⟨0x0102030405060708, 0x090A0B0C0D0E0F10⟩
      = [0xEE, 0xEE, 0xEE, 0xEE, 0xEE, 0xEE, 0xEE, 0xEE,
         1, 2, 3, 4, 5, 6, 7, 8, 9, 10, 11, 12, 13, 14, 15, 16,
         0xEE, 0xEE, 0xEE, 0xEE, 0xEE, 0xEE, 0xEE, 0xEE] ∧
    load ⟨store (List.replicate 32 0xEE) 8 ⟨0x0102030405060708, 0x090A0B0C0D0E0F10⟩,
        fun _ => 0⟩ 8 = ⟨0x0506070C, 0x0D0E0F1C⟩ ∧
    load ⟨store (List.replicate 32 0xEE) 8 ⟨0x0102030405060708, 0x090A0B0C0D0E0F10⟩,
        fun _ => 0⟩ 8 ≠ ⟨0x0102030405060708, 0x090A0B0C0D0E0F10⟩ ∧
    load ⟨store (List.replicate 32 0xEE) 8 ⟨0x01020304, 0x05060708⟩, fun _ => 0⟩ 8
      = ⟨0x01020304, 0x05060708⟩ :=
  ⟨by decide, by decide, by decide, by decide,
    (store_then_load (List.replicate 32 0xEE) (fun _ => 0) 8
      ⟨0x0102030405060708, 0x090A0B0C0D0E0F10⟩ (by decide) (by decide)).2.2.2.2
      (Or.inl (by decide)),
    (store_then_load (List.replicate 32 0xEE) (fun _ => 0) 8
      ⟨0x01020304, 0x05060708⟩ (by decide) (by decide)).2.2.2.1 (by decide) (by decide)⟩

/-- C13 (evaluation at the failing inputs). When fewer than eight bytes remain at
`offset` (also when none remains, as in `load(iv, 12)` on a 12-byte nonce), the
clamp of the second lane wraps around: `load(buffer, offset)` subscripts the
buffer at `offset + 8`, ..., `offset + 15`, all at or behind `buffer.size()`, and
its lane 1 is made of the bytes found there (each shifted as `loadu64` shifts
it), not of zeros. -/
theorem load_indexes_past_end (buffer : Span) (offset : Nat) (h1 : offset ≤ buffer.size)
    (h2 : buffer.size < offset + 8) :
    loadIndices buffer.size offset
      = (List.range (buffer.size - offset)).map (fun n => offset + n)
        ++ (List.range 8).map (fun n => offset + 8 + n) ∧
    (∀ n, n < 8 → offset + 8 + n ∈ loadIndices buffer.size offset ∧
      buffer.size ≤ offset + 8 + n) ∧
    (load buffer offset).d1
      = (List.range 8).foldl
          (fun value n => value ||| shiftedByte (buffer.past (offset + 8 + n)) n) 0 := by
  have e : loadIndices buffer.size offset
      = (List.range (buffer.size - offset)).map (fun n => offset + n)
        ++ (List.range 8).map (fun n => offset + 8 + n) := by
    unfold loadIndices loadu64Indices
    rw [clampBytes_of_short _ _ h1 h2, clampBytes_of_gt _ _ (by omega) (by omega)]
  refine ⟨e, ?_, ?_⟩
  · intro n hn
    refine ⟨?_, by omega⟩
    rw [e, List.mem_append]
    right
    exact List.mem_map.mpr ⟨n, List.mem_range.mpr hn, rfl⟩
  · show loadu64 buffer (offset + 8) = _
    exact loadu64_past buffer (offset + 8) (by omega) (by omega)

theorem load_indexes_past_end_witness :
    shortBuffer.size = 1 ∧
    (loadIndices shortBuffer.size 0
        = (List.range (shortBuffer.size - 0)).map (fun n => 0 + n)
          ++ (List.range 8).map (fun n => 0 + 8 + n) ∧
      (∀ n, n < 8 → 0 + 8 + n ∈ loadIndices shortBuffer.size 0 ∧
        shortBuffer.size ≤ 0 + 8 + n) ∧
      (load shortBuffer 0).d1
        = (List.range 8).foldl
            (fun value n => value ||| shiftedByte (shortBuffer.past (0 + 8 + n)) n) 0) ∧
    loadIndices shortBuffer.size 0 = [0, 8, 9, 10, 11, 12, 13, 14, 15] ∧
    load shortBuffer 0 = ⟨0x07000000, 0xFFFFFFFFFFFFFFFF⟩ ∧
    loadIndices sampleNonce.size 12 = [20, 21, 22, 23, 24, 25, 26, 27] :=
  ⟨by decide, load_indexes_past_end shortBuffer 0 (by decide) (by decide),
    by decide, by decide, by decide⟩

/-- C11 (evaluation at the failing input). On a 12-byte nonce `load(iv, 12)` reads
no byte of the nonce: its lane 0 is zero and its lane 1 comes from the eight bytes
behind the nonce, so two nonces with the same bytes behind them give the same
initial counter block, whatever their own bytes. -/
theorem initial_counter_ignores_nonce (prim : Primitives AesKeySchedule) (iv1 iv2 : Span)
    (h1 : iv1.size = 12) (h2 : iv2.size = 12)
    (hpast : ∀ n, n < 8 → iv1.past (20 + n) = iv2.past (20 + n)) :
    (load iv1 12).d0 = 0 ∧ (∀ idx ∈ loadIndices iv1.size 12, 12 ≤ idx) ∧
    load iv1 12 = load iv2 12 ∧ initialCounter prim iv1 = initialCounter prim iv2 := by
  have e : load iv1 12 = load iv2 12 := by
    rw [load_nonce iv1 h1, load_nonce iv2 h2, range_eight]
    simp only [List.foldl_cons, List.foldl_nil]
    rw [hpast 0 (by omega), hpast 1 (by omega), hpast 2 (by omega), hpast 3 (by omega),
      hpast 4 (by omega), hpast 5 (by omega), hpast 6 (by omega), hpast 7 (by omega)]
  refine ⟨?_, ?_, e, ?_⟩
  · rw [load_nonce iv1 h1]
  · rw [h1]
    decide
  · unfold initialCounter
    rw [e]

theorem initial_counter_ignores_nonce_witness :
    sampleNonce.size = 12 ∧ otherNonce.size = 12 ∧ sampleNonce.data ≠ otherNonce.data ∧
    (load sampleNonce 12).d0 = 0 ∧ (∀ idx ∈ loadIndices sampleNonce.size 12, 12 ≤ idx) ∧
    load sampleNonce 12 = load otherNonce 12 ∧
    initialCounter samplePrimitives sampleNonce = initialCounter samplePrimitives otherNonce :=
  ⟨by decide, by decide, by decide,
    initial_counter_ignores_nonce samplePrimitives sampleNonce otherNonce (by decide)
      (by decide) (fun _ _ => rfl)⟩

end CodecClaims

section BoundsClaims

variable {AesKeySchedule : Type}

/-- C14 (evaluation at the failing input). With a 12-byte nonce and inputs of fewer
than `2 ^ 27` bytes each, the sizes that `AesGcmDecrypt` decodes from the length
block of the blob of `AesGcmEncrypt` are not the byte lengths. For a cipher whose
mask block `AesEncrypt(schedule, ctr)` has both lanes below `2 ^ 31` (the lanes
that `loadu64` reads back as they were stored) they are the bit lengths
`8 * len(A)` and `8 * len(P)`, which differ from the byte lengths unless the input
is empty. For a cipher whose mask block has, in a lane, a set bit and a clear bit
among the bits 41 to 63, the size decoded in that lane is above `2 ^ 40`. -/
theorem decoded_sizes_are_bit_lengths (prim : Primitives AesKeySchedule)
    (hash0 : M128) (schedule : AesKeySchedule) (plaintext additional iv : Span)
    (hiv : iv.size = 12) (hp : plaintext.size < 2 ^ 27) (ha : additional.size < 2 ^ 27) :
    ∃ blob, AesGcmEncrypt prim hash0 schedule plaintext additional iv = Except.ok blob ∧
      ∀ past,
        ((prim.AesEncrypt schedule (initialCounter prim iv)).d0 < 2 ^ 31 →
          (prim.AesEncrypt schedule (initialCounter prim iv)).d1 < 2 ^ 31 →
          (openSizes prim schedule ⟨blob, past⟩ iv).d0 = 8 * additional.size ∧
          (openSizes prim schedule ⟨blob, past⟩ iv).d1 = 8 * plaintext.size ∧
          (0 < additional.size →
            (openSizes prim schedule ⟨blob, past⟩ iv).d0 ≠ additional.size) ∧
          (0 < plaintext.size →
            (openSizes prim schedule ⟨blob, past⟩ iv).d1 ≠ plaintext.size)) ∧
        (2 ^ 41 ≤ (prim.AesEncrypt schedule (initialCounter prim iv)).d0 →
          (prim.AesEncrypt schedule (initialCounter prim iv)).d0 < 2 ^ 64 - 2 ^ 41 →
          (openSizes prim schedule ⟨blob, past⟩ iv).d0 > 2 ^ 40 ∧
          (openSizes prim schedule ⟨blob, past⟩ iv).d0 ≠ additional.size) ∧
        (2 ^ 41 ≤ (prim.AesEncrypt schedule (initialCounter prim iv)).d1 →
          (prim.AesEncrypt schedule (initialCounter prim iv)).d1 < 2 ^ 64 - 2 ^ 41 →
          (openSizes prim schedule ⟨blob, past⟩ iv).d1 > 2 ^ 40 ∧
          (openSizes prim schedule ⟨blob, past⟩ iv).d1 ≠ plaintext.size) := by
  have hsize2 : plaintext.size + additional.size < 2 ^ 63 := by omega
  obtain ⟨blob, hblob, _⟩ :=
    sealed_blob_length prim hash0 schedule plaintext additional iv hiv hsize2
  refine ⟨blob, hblob, ?_⟩
  intro past
  have e0 : (additional.size <<< 3) % 2 ^ 64 = 8 * additional.size := by
    rw [Nat.shiftLeft_eq]
    omega
  have e1 : (plaintext.size <<< 3) % 2 ^ 64 = 8 * plaintext.size := by
    rw [Nat.shiftLeft_eq]
    omega
  have hc := openSizes_above_ceiling prim schedule ⟨blob, past⟩ iv
  refine ⟨?_, ?_, ?_⟩
  · intro hm0 hm1
    rw [openSizes_sealed prim hash0 schedule plaintext additional iv hiv hp ha hm0 hm1 blob
      hblob past, e0, e1]
    refine ⟨rfl, rfl, ?_, ?_⟩
    · intro h
      show 8 * additional.size ≠ additional.size
      omega
    · intro h
      show 8 * plaintext.size ≠ plaintext.size
      omega
  · intro h1 h2
    have h := hc.1 h1 h2
    generalize (openSizes prim schedule ⟨blob, past⟩ iv).d0 = x at h
    exact ⟨h, by omega⟩
  · intro h1 h2
    have h := hc.2 h1 h2
    generalize (openSizes prim schedule ⟨blob, past⟩ iv).d1 = x at h
    exact ⟨h, by omega⟩

theorem decoded_sizes_are_bit_lengths_witness :
    sampleNonce.size = 12 ∧ samplePlaintext.size < 2 ^ 27 ∧ emptyInput.size < 2 ^ 27 ∧
    (samplePrimitives.AesEncrypt () (initialCounter samplePrimitives sampleNonce)).d0
      < 2 ^ 31 ∧
    (samplePrimitives.AesEncrypt () (initialCounter samplePrimitives sampleNonce)).d1
      < 2 ^ 31 ∧
    samplePlaintext.size = 16 ∧
    AesGcmEncrypt samplePrimitives ⟨0, 0⟩ () samplePlaintext emptyInput sampleNonce
      = Except.ok sealedSample ∧
    openSizes samplePrimitives () (spanOf sealedSample) sampleNonce = ⟨0, 128⟩ ∧
    ∃ blob, AesGcmEncrypt samplePrimitives ⟨0, 0⟩ () samplePlaintext emptyInput sampleNonce
        = Except.ok blob ∧
      ∀ past,
        ((samplePrimitives.AesEncrypt () (initialCounter samplePrimitives sampleNonce)).d0
            < 2 ^ 31 →
          (samplePrimitives.AesEncrypt () (initialCounter samplePrimitives sampleNonce)).d1
            < 2 ^ 31 →
          (openSizes samplePrimitives () ⟨blob, past⟩ sampleNonce).d0 = 8 * emptyInput.size ∧
          (openSizes samplePrimitives () ⟨blob, past⟩ sampleNonce).d1
            = 8 * samplePlaintext.size ∧
          (0 < emptyInput.size →
            (openSizes samplePrimitives () ⟨blob, past⟩ sampleNonce).d0 ≠ emptyInput.size) ∧
          (0 < samplePlaintext.size →
            (openSizes samplePrimitives () ⟨blob, past⟩ sampleNonce).d1
              ≠ samplePlaintext.size)) ∧
        (2 ^ 41
            ≤ (samplePrimitives.AesEncrypt () (initialCounter samplePrimitives sampleNonce)).d0 →
          (samplePrimitives.AesEncrypt () (initialCounter samplePrimitives sampleNonce)).d0
            < 2 ^ 64 - 2 ^ 41 →
          (openSizes samplePrimitives () ⟨blob, past⟩ sampleNonce).d0 > 2 ^ 40 ∧
          (openSizes samplePrimitives () ⟨blob, past⟩ sampleNonce).d0 ≠ emptyInput.size) ∧
        (2 ^ 41
            ≤ (samplePrimitives.AesEncrypt () (initialCounter samplePrimitives sampleNonce)).d1 →
          (samplePrimitives.AesEncrypt () (initialCounter samplePrimitives sampleNonce)).d1
            < 2 ^ 64 - 2 ^ 41 →
          (openSizes samplePrimitives () ⟨blob, past⟩ sampleNonce).d1 > 2 ^ 40 ∧
          (openSizes samplePrimitives () ⟨blob, past⟩ sampleNonce).d1
            ≠ samplePlaintext.size) :=
  ⟨by decide, by decide, by decide, by decide, by decide, by decide,
    sealedSample_eq, by decide,
    decoded_sizes_are_bit_lengths samplePrimitives ⟨0, 0⟩ ()
      samplePlaintext emptyInput sampleNonce (by decide) (by decide) (by decide)⟩

theorem openAadReads_mem (asize : Nat) :
    ∀ fuel offset off, off ∈ openAadReads asize fuel offset →
      offset ≤ off ∧ off < asize ∧ (off - offset) % 16 = 0 := by
  intro fuel
  induction fuel with
  | zero => intro offset off h; simp [openAadReads] at h
  | succ fuel ih =>
    intro offset off h
    unfold openAadReads at h
    by_cases hlt : offset < asize
    · simp only [hlt, if_true, List.mem_cons] at h
      rcases h with h | h
      · subst h
        exact ⟨Nat.le_refl _, hlt, by simp⟩
      · obtain ⟨a, b, c⟩ := ih (offset + 16) off h
        exact ⟨by omega, b, by omega⟩
    · simp [hlt] at h

theorem openAadReads_length (asize : Nat) :
    ∀ fuel offset, asize ≤ offset + 16 * fuel →
      (openAadReads asize fuel offset).length = (asize - offset + 15) / 16 := by
  intro fuel
  induction fuel with
  | zero =>
    intro offset h
    have : (asize - offset + 15) / 16 = 0 := by omega
    simp [openAadReads, this]
  | succ fuel ih =>
    intro offset h
    unfold openAadReads
    by_cases hlt : offset < asize
    · simp only [hlt, if_true, List.length_cons]
      rw [ih (offset + 16) (by omega)]
      omega
    · have : (asize - offset + 15) / 16 = 0 := by omega
      simp [hlt, this]

theorem openDataTrace_mem (prim : Primitives AesKeySchedule) (psize : Nat) :
    ∀ fuel i offset ctr e, e ∈ openDataTrace prim psize fuel i offset ctr →
      i ≤ e.2.2 ∧ e.2.2 < psize ∧ (e.2.2 - i) % 16 = 0 ∧ e.1 + i = offset + e.2.2 := by
  intro fuel
  induction fuel with
  | zero => intro i offset ctr e h; simp [openDataTrace] at h
  | succ fuel ih =>
    intro i offset ctr e h
    unfold openDataTrace at h
    by_cases hlt : i < psize
    · simp only [hlt, if_true, List.mem_cons] at h
      rcases h with h | h
      · subst h
        exact ⟨Nat.le_refl _, hlt, by simp, rfl⟩
      · obtain ⟨a, b, c, d⟩ := ih (i + 16) (offset + 16) (prim.inc ctr) e h
        exact ⟨by omega, b, by omega, by omega⟩
    · simp [hlt] at h

/-- The counters of the data pass of `AesGcmDecrypt`: the `k`-th is the start
counter incremented `k + 1` times; there is one per 16 bytes of `psize`. -/
theorem openDataTrace_counters (prim : Primitives AesKeySchedule) (psize : Nat) :
    ∀ fuel i offset ctr, psize ≤ i + 16 * fuel →
      (openDataTrace prim psize fuel i offset ctr).map (fun e => e.2.1)
        = (List.range ((psize - i + 15) / 16)).map (fun k => prim.inc^[k + 1] ctr) := by
  intro fuel
  induction fuel with
  | zero =>
    intro i offset ctr h
    have : (psize - i + 15) / 16 = 0 := by omega
    simp [openDataTrace, this]
  | succ fuel ih =>
    intro i offset ctr h
    unfold openDataTrace
    by_cases hlt : i < psize
    · have hn : (psize - i + 15) / 16 = (psize - (i + 16) + 15) / 16 + 1 := by omega
      simp only [hlt, if_true, List.map_cons]
      rw [ih (i + 16) (offset + 16) (prim.inc ctr) (by omega), hn, List.range_succ_eq_map,
        List.map_cons, List.map_map]
      rfl
    · have : (psize - i + 15) / 16 = 0 := by omega
      simp [hlt, this]

theorem viewFront_eq_take (buffer : Span) (asize : Nat) (h : asize ≤ buffer.size) :
    viewFront buffer asize = buffer.data.take asize := by
  unfold viewFront
  apply List.ext_getElem?
  intro k
  by_cases hk : k < asize
  · rw [List.getElem?_map, List.getElem?_range hk, List.getElem?_take_of_lt hk]
    have hk2 : k < buffer.data.length := Nat.lt_of_lt_of_le hk h
    simp only [Option.map_some']
    rw [buffer.index_of_lt k hk2, List.getD_eq_getElem _ _ hk2, List.getElem?_eq_getElem hk2]
  · rw [List.getElem?_eq_none (by simp; omega), List.getElem?_eq_none (by
      rw [List.length_take]; omega)]

theorem loadIndices_of_le (size offset : Nat) (h : offset + 16 ≤ size) (hs : size < 2 ^ 64) :
    (loadIndices size offset).length = 16 ∧
    ∀ idx ∈ loadIndices size offset, offset ≤ idx ∧ idx < offset + 16 := by
  unfold loadIndices
  rw [loadu64Indices_of_le size offset (by omega) hs,
    loadu64Indices_of_le size (offset + 8) (by omega) hs]
  refine ⟨rfl, ?_⟩
  intro idx hidx
  simp only [List.mem_append, List.mem_cons, List.mem_singleton, List.not_mem_nil,
    or_false] at hidx
  omega

/-- C19 (the bulk work of `AesGcmDecrypt` is in bounds). For a blob of fewer than
`2 ^ 64` bytes that passes the checks of lines 73 and 81-83: the sum
`ablocks + pblocks + 2` does not wrap; the two loops run `ablocks` and `pblocks`
times; every `load` of the two loops subscripts sixteen positions, all inside the
first `len(blob) - 32` bytes; every `store` into the plaintext buffer subscripts
sixteen positions, all inside its `pblocks * 16` bytes; the data loop ends with
`offset = len(blob) - 32`; and the view `[0, asize)` lies inside the blob. -/
theorem open_in_bounds (prim : Primitives AesKeySchedule) (hash0 : M128)
    (schedule : AesKeySchedule) (buffer iv : Span) (hs64 : buffer.size < 2 ^ 64)
    (hf : ¬ formatRejected buffer)
    (hs : ¬ sizesRejected (openSizes prim schedule buffer iv).d0
      (openSizes prim schedule buffer iv).d1 buffer.size) :
    blockCount (openSizes prim schedule buffer iv).d0
        + blockCount (openSizes prim schedule buffer iv).d1 + 2 < 2 ^ 64 ∧
    (openAadReads (openSizes prim schedule buffer iv).d0
        (openSizes prim schedule buffer iv).d0 0).length
      = blockCount (openSizes prim schedule buffer iv).d0 ∧
    (openTrace prim schedule buffer iv).length
      = blockCount (openSizes prim schedule buffer iv).d1 ∧
    (∀ off ∈ openAadReads (openSizes prim schedule buffer iv).d0
        (openSizes prim schedule buffer iv).d0 0,
      (loadIndices buffer.size off).length = 16 ∧
      ∀ idx ∈ loadIndices buffer.size off, idx < buffer.size - 32) ∧
    (∀ e ∈ openTrace prim schedule buffer iv,
      (loadIndices buffer.size e.1).length = 16 ∧
      (∀ idx ∈ loadIndices buffer.size e.1, idx < buffer.size - 32) ∧
      (loadIndices (blockCount (openSizes prim schedule buffer iv).d1 * 16) e.2.2).length
        = 16 ∧
      ∀ idx ∈ loadIndices (blockCount (openSizes prim schedule buffer iv).d1 * 16) e.2.2,
        idx < blockCount (openSizes prim schedule buffer iv).d1 * 16) ∧
    (openBody prim hash0 schedule buffer iv).1 = buffer.size - 32 ∧
    (openBody prim hash0 schedule buffer iv).2.2.2.length
      = blockCount (openSizes prim schedule buffer iv).d1 * 16 ∧
    (openSizes prim schedule buffer iv).d0 ≤ buffer.size ∧
    viewFront buffer (openSizes prim schedule buffer iv).d0
      = buffer.data.take (openSizes prim schedule buffer iv).d0 := by
  unfold formatRejected at hf
  unfold sizesRejected at hs
  have ha : (openSizes prim schedule buffer iv).d0 ≤ 0x10000000000 := by omega
  have hp : (openSizes prim schedule buffer iv).d1 ≤ 0x10000000000 := by omega
  have hc : (blockCount (openSizes prim schedule buffer iv).d0
      + blockCount (openSizes prim schedule buffer iv).d1 + 2) % 2 ^ 64 = buffer.size / 16 := by
    omega
  have bA := blockCount_of_le _ ha
  have bP := blockCount_of_le _ hp
  rw [bA, bP] at hc
  rw [bA, bP]
  have hstart : ∀ h0 : M128,
      (openAadLoop prim (hashSubkey prim schedule) buffer (openSizes prim schedule buffer iv).d0
        (openSizes prim schedule buffer iv).d0 0 h0).1
      = 16 * (((openSizes prim schedule buffer iv).d0 + 15) / 16) := by
    intro h0
    rw [openAadLoop_eq prim _ buffer _ _ 0 h0 (by omega)]
    simp
  have hcount := openDataTrace_counters prim (openSizes prim schedule buffer iv).d1
    (openSizes prim schedule buffer iv).d1 0
    (openAadLoop prim (hashSubkey prim schedule) buffer (openSizes prim schedule buffer iv).d0
      (openSizes prim schedule buffer iv).d0 0 M128.zero).1
    (prim.inc (initialCounter prim iv)) (by omega)
  refine ⟨by omega, ?_, ?_, ?_, ?_, ?_, ?_, by omega, viewFront_eq_take _ _ (by omega)⟩
  · rw [openAadReads_length _ _ 0 (by omega)]
    simp
  · have := congrArg List.length hcount
    simp only [List.length_map, List.length_range, Nat.sub_zero] at this
    exact this
  · intro off hoff
    obtain ⟨_, h2, h3⟩ := openAadReads_mem _ _ 0 off hoff
    obtain ⟨l1, l2⟩ := loadIndices_of_le buffer.size off (by omega) hs64
    refine ⟨l1, ?_⟩
    intro idx hidx
    have := l2 idx hidx
    omega
  · intro e he
    unfold openTrace at he
    simp only at he
    obtain ⟨_, h2, h3, h4⟩ := openDataTrace_mem prim _ _ 0 _ _ e he
    rw [hstart M128.zero] at h4
    obtain ⟨l1, l2⟩ := loadIndices_of_le buffer.size e.1 (by omega) hs64
    obtain ⟨m1, m2⟩ := loadIndices_of_le
      (((openSizes prim schedule buffer iv).d1 + 15) / 16 * 16) e.2.2 (by omega) (by omega)
    refine ⟨l1, ?_, m1, ?_⟩
    · intro idx hidx
      have := l2 idx hidx
      omega
    · intro idx hidx
      have := m2 idx hidx
      omega
  · unfold openBody
    simp only
    rw [(openDataLoop_eq prim schedule _ buffer _ _ 0 _ _ _ _ (by omega)).1, hstart hash0]
    omega
  · unfold openBody
    simp only
    rw [(openDataLoop_eq prim schedule _ buffer _ _ 0 _ _ _ _ (by omega)).2.2, resize_length,
      bP]

theorem open_in_bounds_witness :
    (spanOf sampleBlob).size < 2 ^ 64 ∧ ¬ formatRejected (spanOf sampleBlob) ∧
    ¬ sizesRejected (openSizes samplePrimitives () (spanOf sampleBlob) sampleNonce).d0
      (openSizes samplePrimitives () (spanOf sampleBlob) sampleNonce).d1
      (spanOf sampleBlob).size ∧
    openAadReads (openSizes samplePrimitives () (spanOf sampleBlob) sampleNonce).d0
      (openSizes samplePrimitives () (spanOf sampleBlob) sampleNonce).d0 0 = [0] ∧
    (openTrace samplePrimitives () (spanOf sampleBlob) sampleNonce).map (fun e => (e.1, e.2.2))
      = [(16, 0)] ∧
    (openBody samplePrimitives ⟨0, 0⟩ () (spanOf sampleBlob) sampleNonce).1
      = (spanOf sampleBlob).size - 32 ∧
    (openSizes samplePrimitives () (spanOf sampleBlob) sampleNonce).d0
      ≤ (spanOf sampleBlob).size :=
  ⟨by decide, by decide, by decide, by decide, by decide,
    (open_in_bounds samplePrimitives ⟨0, 0⟩ () (spanOf sampleBlob) sampleNonce (by decide)
      (by decide) (by decide)).2.2.2.2.2.1,
    (open_in_bounds samplePrimitives ⟨0, 0⟩ () (spanOf sampleBlob) sampleNonce (by decide)
      (by decide) (by decide)).2.2.2.2.2.2.2.1⟩

end BoundsClaims

section CounterClaims

variable {AesKeySchedule : Type}

/-- The counters of the data pass of `AesGcmEncrypt`: the `k`-th is the start
counter incremented `k + 1` times; there is one per 16 bytes of plaintext. -/
theorem sealDataTrace_counters (prim : Primitives AesKeySchedule) (schedule : AesKeySchedule)
    (plaintext : Span) :
    ∀ fuel i ctr, plaintext.size ≤ i + 16 * fuel →
      (sealDataTrace prim schedule plaintext fuel i ctr).map Prod.fst
        = (List.range ((plaintext.size - i + 15) / 16)).map (fun k => prim.inc^[k + 1] ctr) := by
  intro fuel
  induction fuel with
  | zero =>
    intro i ctr h
    have : (plaintext.size - i + 15) / 16 = 0 := by omega
    simp [sealDataTrace, this]
  | succ fuel ih =>
    intro i ctr h
    unfold sealDataTrace
    by_cases hlt : i < plaintext.size
    · have hn : (plaintext.size - i + 15) / 16 = (plaintext.size - (i + 16) + 15) / 16 + 1 := by
        omega
      simp only [hlt, if_true, List.map_cons]
      rw [ih (i + 16) (prim.inc ctr) (by omega), hn, List.range_succ_eq_map,
        List.map_cons, List.map_map]
      rfl
    · have : (plaintext.size - i + 15) / 16 = 0 := by omega
      simp [hlt, this]

/-- The data pass of `AesGcmEncrypt` folds the blocks of its trace, in order. -/
theorem sealDataLoop_hash (prim : Primitives AesKeySchedule) (schedule : AesKeySchedule)
    (H : M128) (plaintext : Span) :
    ∀ fuel i offset ctr hash buffer,
      (sealDataLoop prim schedule H plaintext fuel i offset ctr hash buffer).2.2.1
        = foldHash prim H hash
            ((sealDataTrace prim schedule plaintext fuel i ctr).map Prod.snd) := by
  intro fuel
  induction fuel with
  | zero => intro i offset ctr hash buffer; rfl
  | succ fuel ih =>
    intro i offset ctr hash buffer
    unfold sealDataLoop sealDataTrace
    by_cases hlt : i < plaintext.size
    · simp only [hlt, if_true, List.map_cons]
      rw [ih]
      rfl
    · simp [hlt, foldHash]

/-- The counter that the data pass of `AesGcmEncrypt` leaves is the last one of its
trace (or the start counter when the pass is empty). -/
theorem sealDataLoop_ctr (prim : Primitives AesKeySchedule) (schedule : AesKeySchedule)
    (H : M128) (plaintext : Span) :
    ∀ fuel i offset ctr hash buffer,
      (sealDataLoop prim schedule H plaintext fuel i offset ctr hash buffer).2.1
        = ((sealDataTrace prim schedule plaintext fuel i ctr).map Prod.fst).foldl
            (fun _ c => c) ctr := by
  intro fuel
  induction fuel with
  | zero => intro i offset ctr hash buffer; rfl
  | succ fuel ih =>
    intro i offset ctr hash buffer
    unfold sealDataLoop sealDataTrace
    by_cases hlt : i < plaintext.size
    · simp only [hlt, if_true, List.map_cons, List.foldl_cons]
      rw [ih]
    · simp [hlt]

/-- The counter that the data pass of `AesGcmDecrypt` leaves is the last one of its
trace (or the start counter when the pass is empty). -/
theorem openDataLoop_ctr (prim : Primitives AesKeySchedule) (schedule : AesKeySchedule)
    (H : M128) (buffer : Span) (psize : Nat) :
    ∀ fuel i offset ctr hash plaintext,
      (openDataLoop prim schedule H buffer psize fuel i offset ctr hash plaintext).2.1
        = ((openDataTrace prim psize fuel i offset ctr).map (fun e => e.2.1)).foldl
            (fun _ c => c) ctr := by
  intro fuel
  induction fuel with
  | zero => intro i offset ctr hash plaintext; rfl
  | succ fuel ih =>
    intro i offset ctr hash plaintext
    unfold openDataLoop openDataTrace
    by_cases hlt : i < psize
    · simp only [hlt, if_true, List.map_cons, List.foldl_cons]
      rw [ih]
    · simp [hlt]

theorem sealCounters_eq (prim : Primitives AesKeySchedule) (schedule : AesKeySchedule)
    (plaintext iv : Span) :
    sealCounters prim schedule plaintext iv
      = (List.range ((plaintext.size + 15) / 16)).map
          (fun k => prim.inc^[k + 1] (initialCounter prim iv)) := by
  unfold sealCounters
  rw [sealDataTrace_counters prim schedule plaintext plaintext.size 0 (initialCounter prim iv)
    (by omega)]
  rfl

theorem openCounters_eq (prim : Primitives AesKeySchedule) (schedule : AesKeySchedule)
    (buffer iv : Span) :
    openCounters prim schedule buffer iv
      = (List.range (((openSizes prim schedule buffer iv).d1 + 15) / 16)).map
          (fun k => prim.inc^[k + 2] (initialCounter prim iv)) := by
  unfold openCounters openTrace
  simp only
  rw [openDataTrace_counters prim (openSizes prim schedule buffer iv).d1
    (openSizes prim schedule buffer iv).d1 0 _ (prim.inc (initialCounter prim iv)) (by omega)]
  simp only [Nat.sub_zero]
  apply List.map_congr_left
  intro k _
  exact (Function.iterate_succ_apply prim.inc (k + 1) _).symm

theorem inc128_ne (c : M128) : inc128 c ≠ c := by
  unfold inc128
  intro h
  split at h
  · have := congrArg M128.d1 h
    simp only at this
    omega
  · have := congrArg M128.d1 h
    simp only at this
    omega

/-- C17 (evaluation at the failing input). For the same nonce and every block index
`j` at which both data passes run, `AesGcmEncrypt` passes the initial counter
incremented `j + 1` times to `AesEncrypt`, and `AesGcmDecrypt` passes it incremented
`j + 2` times: one increment more, which is a different block when the increment is
the 128-bit one. -/
theorem open_counter_one_ahead (prim : Primitives AesKeySchedule) (schedule : AesKeySchedule)
    (plaintext buffer iv : Span) (j : Nat) (hj1 : 16 * j < plaintext.size)
    (hj2 : 16 * j < (openSizes prim schedule buffer iv).d1) :
    (sealCounters prim schedule plaintext iv)[j]?
      = some (prim.inc^[j + 1] (initialCounter prim iv)) ∧
    (openCounters prim schedule buffer iv)[j]?
      = some (prim.inc^[j + 2] (initialCounter prim iv)) ∧
    (openCounters prim schedule buffer iv)[j]?
      = ((sealCounters prim schedule plaintext iv)[j]?).map prim.inc ∧
    (prim.inc = inc128 →
      (openCounters prim schedule buffer iv)[j]?
        ≠ (sealCounters prim schedule plaintext iv)[j]?) := by
  have e1 : (sealCounters prim schedule plaintext iv)[j]?
      = some (prim.inc^[j + 1] (initialCounter prim iv)) := by
    rw [sealCounters_eq, List.getElem?_map, List.getElem?_range (by omega)]
    rfl
  have e2 : (openCounters prim schedule buffer iv)[j]?
      = some (prim.inc^[j + 2] (initialCounter prim iv)) := by
    rw [openCounters_eq, List.getElem?_map, List.getElem?_range (by omega)]
    rfl
  have e3 : prim.inc^[j + 2] (initialCounter prim iv)
      = prim.inc (prim.inc^[j + 1] (initialCounter prim iv)) :=
    Function.iterate_succ_apply' prim.inc (j + 1) _
  refine ⟨e1, e2, ?_, ?_⟩
  · rw [e1, e2, e3]
    rfl
  · intro hinc
    rw [e1, e2, e3, hinc]
    intro h
    injection h with h
    exact inc128_ne _ h

theorem open_counter_one_ahead_witness :
    16 * 0 < samplePlaintext.size ∧
    16 * 0 < (openSizes samplePrimitives () (spanOf sampleBlob) sampleNonce).d1 ∧
    samplePrimitives.inc = inc128 ∧
    (sealCounters samplePrimitives () samplePlaintext sampleNonce)[0]? = some ⟨0, 2⟩ ∧
    (openCounters samplePrimitives () (spanOf sampleBlob) sampleNonce)[0]? = some ⟨0, 3⟩ ∧
    (openCounters samplePrimitives () (spanOf sampleBlob) sampleNonce)[0]?
      ≠ (sealCounters samplePrimitives () samplePlaintext sampleNonce)[0]? :=
  ⟨by decide, by decide, rfl, by decide, by decide,
    (open_counter_one_ahead samplePrimitives () samplePlaintext (spanOf sampleBlob)
      sampleNonce 0 (by decide) (by decide)).2.2.2 rfl⟩

end CounterClaims

section ReuseClaims

variable {AesKeySchedule : Type}

end ReuseClaims

section PaddingClaims

variable {AesKeySchedule : Type}

theorem getD_set_zero (l : List Nat) (i j : Nat) :
    (l.set i 0).getD j 0 = if j = i then 0 else l.getD j 0 := by
  by_cases hi : i < l.length
  · exact getD_set_eq l i 0 j hi
  · rw [List.set_eq_of_length_le (by omega)]
    by_cases hj : j = i
    · rw [if_pos hj, hj, List.getD_eq_default _ _ (by omega)]
    · rw [if_neg hj]

theorem foldl_set_zero_getD (g : Nat → Nat) (j : Nat) :
    ∀ (ks : List Nat) (b : List Nat), (b.getD j 0 = 0 ∨ ∃ n ∈ ks, g n = j) →
      (ks.foldl (fun buf n => buf.set (g n) 0) b).getD j 0 = 0 := by
  intro ks
  induction ks with
  | nil =>
    intro b h
    rcases h with h | ⟨n, hn, _⟩
    · exact h
    · simp at hn
  | cons k ks ih =>
    intro b h
    rw [List.foldl_cons]
    apply ih
    rcases h with h | ⟨n, hn, hg⟩
    · left
      rw [getD_set_zero]
      split
      · rfl
      · exact h
    · rcases List.mem_cons.mp hn with hk | hk
      · left
        rw [getD_set_zero, if_pos (by rw [← hg, hk])]
      · right
        exact ⟨n, hk, hg⟩

/-- The inner loop of lines 56-58 leaves zero bytes at `offset + bytes`, ...,
`offset + 15`. -/
theorem zeroTail_getD (b : List Nat) (offset bytes j : Nat) (h1 : offset + bytes ≤ j)
    (h2 : j < offset + 16) : (zeroTail b offset bytes).getD j 0 = 0 := by
  unfold zeroTail
  apply foldl_set_zero_getD (fun n => offset + n) j
  right
  refine ⟨j - offset, ?_, by omega⟩
  rw [List.mem_range'_1]
  omega

theorem sealDataLoop_done (prim : Primitives AesKeySchedule) (schedule : AesKeySchedule)
    (H : M128) (plaintext : Span) (fuel i offset : Nat) (ctr hash : M128) (buffer : List Nat)
    (h : ¬ i < plaintext.size) :
    sealDataLoop prim schedule H plaintext fuel i offset ctr hash buffer
      = (offset, ctr, hash, buffer) := by
  cases fuel with
  | zero => rfl
  | succ fuel =>
    unfold sealDataLoop
    simp [h]

/-- The data pass of `AesGcmEncrypt` on a plaintext whose length is not a multiple
of 16 leaves zero bytes from the end of the ciphertext to the end of its last
block. -/
theorem sealDataLoop_tail_zero (prim : Primitives AesKeySchedule) (schedule : AesKeySchedule)
    (H : M128) (plaintext : Span) (hmod : plaintext.size % 16 ≠ 0) :
    ∀ fuel i offset ctr hash buffer, i % 16 = 0 → i < plaintext.size →
      plaintext.size ≤ i + 16 * fuel →
      ∀ j, offset + (plaintext.size - i) ≤ j →
        j < offset + 16 * ((plaintext.size - i + 15) / 16) →
        (sealDataLoop prim schedule H plaintext fuel i offset ctr hash buffer).2.2.2.getD j 0
          = 0 := by
  intro fuel
  induction fuel with
  | zero =>
    intro i offset ctr hash buffer _ hlt hfuel
    omega
  | succ fuel ih =>
    intro i offset ctr hash buffer hi hlt hfuel j hj1 hj2
    unfold sealDataLoop
    simp only [hlt, if_true]
    by_cases hnext : i + 16 < plaintext.size
    · exact ih (i + 16) (offset + 16) _ _ _ (by omega) hnext (by omega) j (by omega) (by omega)
    · rw [sealDataLoop_done prim schedule H plaintext fuel (i + 16) (offset + 16) _ _ _ hnext]
      simp only
      unfold trimLast
      have hdiv : i / 16 = plaintext.size / 16 := by omega
      simp only [hdiv, if_true, ne_eq, hmod, not_false_eq_true]
      apply zeroTail_getD
      · omega
      · omega

/-- The buffer of `AesGcmEncrypt` after its two loops, for a plaintext whose length
is not a multiple of 16: the bytes from the end of the ciphertext to the end of its
last block are there and are 0. -/
theorem sealBody_tail_zero (prim : Primitives AesKeySchedule) (hash0 : M128)
    (schedule : AesKeySchedule) (plaintext additional iv : Span)
    (hsize : plaintext.size + additional.size < 2 ^ 63) (hmod : plaintext.size % 16 ≠ 0)
    (j : Nat) (hj1 : roundUp16 additional.size + plaintext.size ≤ j)
    (hj2 : j < roundUp16 additional.size + roundUp16 plaintext.size) :
    (sealBody prim hash0 schedule plaintext additional iv).2.2.2[j]? = some 0 := by
  obtain ⟨_, hlen⟩ := sealBody_spec prim hash0 schedule plaintext additional iv
  rw [sealedSize_eq _ _ hsize] at hlen
  have hzero : (sealBody prim hash0 schedule plaintext additional iv).2.2.2.getD j 0 = 0 := by
    unfold sealBody
    simp only
    have hoff := (sealAadLoop_spec prim (hashSubkey prim schedule) additional
      additional.size 0 0 hash0 (resize [] (sealedSize plaintext.size additional.size))
      (by omega)).1
    have hoff2 : (sealAadLoop prim (hashSubkey prim schedule) additional additional.size 0 0
        hash0 (resize [] (sealedSize plaintext.size additional.size))).1
        = roundUp16 additional.size := by
      rw [hoff]
      unfold roundUp16
      simp
    apply sealDataLoop_tail_zero prim schedule _ plaintext hmod plaintext.size 0 _ _ _ _
      (by omega) (by omega) (by omega) j
    · rw [hoff2]
      omega
    · rw [hoff2]
      unfold roundUp16 at hj2
      simpa using hj2
  have hjlen : j < (sealBody prim hash0 schedule plaintext additional iv).2.2.2.length := by
    rw [hlen]
    omega
  rw [List.getElem?_eq_getElem hjlen, ← List.getD_eq_getElem _ 0 hjlen, hzero]

/-- C15 (ciphertext padding is zero). With a 12-byte nonce, inputs of fewer than
`2 ^ 63` bytes together and a plaintext whose length is not a multiple of 16, every
byte of the blob of `AesGcmEncrypt` at a position from `roundUp16(len A) + len P`
up to, not including, `roundUp16(len A) + roundUp16(len P)` is 0. -/
theorem padding_is_zero (prim : Primitives AesKeySchedule) (hash0 : M128)
    (schedule : AesKeySchedule) (plaintext additional iv : Span) (hiv : iv.size = 12)
    (hsize : plaintext.size + additional.size < 2 ^ 63) (hmod : plaintext.size % 16 ≠ 0) :
    ∃ blob, AesGcmEncrypt prim hash0 schedule plaintext additional iv = Except.ok blob ∧
      ∀ j, roundUp16 additional.size + plaintext.size ≤ j →
        j < roundUp16 additional.size + roundUp16 plaintext.size →
        blob[j]? = some 0 := by
  obtain ⟨_, hlen⟩ := sealBody_spec prim hash0 schedule plaintext additional iv
  rw [sealedSize_eq _ _ hsize] at hlen
  refine ⟨_, sealed_blob_eq prim hash0 schedule plaintext additional iv hiv hsize, ?_⟩
  intro j hj1 hj2
  rw [List.append_assoc, List.getElem?_append_left (by rw [List.length_take]; omega),
    List.getElem?_take_of_lt hj2]
  exact sealBody_tail_zero prim hash0 schedule plaintext additional iv hsize hmod j hj1 hj2

theorem padding_is_zero_witness :
    sampleNonce.size = 12 ∧ longPlaintext.size + emptyInput.size < 2 ^ 63 ∧
    longPlaintext.size = 17 ∧ roundUp16 emptyInput.size + longPlaintext.size = 17 ∧
    roundUp16 emptyInput.size + roundUp16 longPlaintext.size = 32 ∧
    ∃ blob, AesGcmEncrypt samplePrimitives ⟨0, 0⟩ () longPlaintext emptyInput sampleNonce
        = Except.ok blob ∧
      ∀ j, roundUp16 emptyInput.size + longPlaintext.size ≤ j →
        j < roundUp16 emptyInput.size + roundUp16 longPlaintext.size →
        blob[j]? = some 0 :=
  ⟨by decide, by decide, by decide, by decide, by decide,
    padding_is_zero samplePrimitives ⟨0, 0⟩ () longPlaintext emptyInput sampleNonce (by decide)
      (by decide) (by decide)⟩

end PaddingClaims

section FoldClaims

variable {AesKeySchedule : Type}

/-- The associated-data pass of `AesGcmEncrypt`, given enough iterations, folds the
blocks `load(additional, i)` in order. -/
theorem sealAadLoop_hash (prim : Primitives AesKeySchedule) (H : M128) (additional : Span) :
    ∀ fuel i offset hash buffer, additional.size ≤ i + 16 * fuel →
      (sealAadLoop prim H additional fuel i offset hash buffer).2.1
        = foldHash prim H hash
            (blocksFrom additional i ((additional.size - i + 15) / 16)) := by
  intro fuel
  induction fuel with
  | zero =>
    intro i offset hash buffer h
    have : (additional.size - i + 15) / 16 = 0 := by omega
    simp [sealAadLoop, this, blocksFrom, foldHash]
  | succ fuel ih =>
    intro i offset hash buffer h
    unfold sealAadLoop
    by_cases hlt : i < additional.size
    · have hn : (additional.size - i + 15) / 16 = (additional.size - (i + 16) + 15) / 16 + 1 := by
        omega
      simp only [hlt, if_true]
      rw [ih (i + 16) (offset + 16) _ _ (by omega), hn, blocksFrom]
      simp [foldHash]
    · have : (additional.size - i + 15) / 16 = 0 := by omega
      simp [hlt, this, blocksFrom, foldHash]

/-- The accumulator of `AesGcmEncrypt` before the length block: the fold of the
associated-data blocks and then of the blocks of the data pass. -/
theorem sealBody_hash (prim : Primitives AesKeySchedule) (hash0 : M128)
    (schedule : AesKeySchedule) (plaintext additional iv : Span) :
    (sealBody prim hash0 schedule plaintext additional iv).2.2.1
      = foldHash prim (hashSubkey prim schedule) hash0
          (blocksFrom additional 0 ((additional.size + 15) / 16)
            ++ sealFolded prim schedule plaintext iv) := by
  unfold sealBody sealFolded
  simp only
  rw [sealDataLoop_hash, foldHash_append,
    sealAadLoop_hash prim (hashSubkey prim schedule) additional additional.size 0 0 hash0 _
      (by omega)]
  rfl

/-- C12 (counterexample). For the 16-byte plaintext `samplePlaintext`, no associated
data and `sampleNonce`, the last 16 bytes of the blob of `AesGcmEncrypt` are the
bytes of the final accumulator itself; they are not the bytes of the final
accumulator XOR `AesEncrypt` of the reserved counter `final_ctr`. -/
theorem tag_is_not_masked :
    AesGcmEncrypt samplePrimitives ⟨0, 0⟩ () samplePlaintext emptyInput sampleNonce
      = Except.ok sealedSample ∧
    sealedSample.drop (sealedSample.length - 16)
      = blockBytes (sealTag samplePrimitives ⟨0, 0⟩ () samplePlaintext emptyInput sampleNonce) ∧
    sealedSample.drop (sealedSample.length - 16)
      ≠ blockBytes ((sealTag samplePrimitives ⟨0, 0⟩ () samplePlaintext emptyInput
          sampleNonce).xor
          (samplePrimitives.AesEncrypt () (initialCounter samplePrimitives sampleNonce))) := by
  exact ⟨sealedSample_eq, by decide, by decide⟩

/-- C12 (amended). With a 12-byte nonce and inputs of fewer than `2 ^ 63` bytes
together, the last 16 bytes of the blob of `AesGcmEncrypt` are the big-endian bytes
of the final accumulator, unmasked: the value obtained by folding the
associated-data blocks, the blocks of the data pass and the length block `sizes`
(which is the one masked with `AesEncrypt` of the reserved counter). -/
theorem tag_is_final_accumulator (prim : Primitives AesKeySchedule) (hash0 : M128)
    (schedule : AesKeySchedule) (plaintext additional iv : Span) (hiv : iv.size = 12)
    (hsize : plaintext.size + additional.size < 2 ^ 63) :
    ∃ blob, AesGcmEncrypt prim hash0 schedule plaintext additional iv = Except.ok blob ∧
      blob.drop (blob.length - 16)
        = blockBytes (foldHash prim (hashSubkey prim schedule) hash0
            (blocksFrom additional 0 ((additional.size + 15) / 16)
              ++ sealFolded prim schedule plaintext iv
              ++ [sealSizes prim schedule plaintext additional iv])) ∧
      sealSizes prim schedule plaintext additional iv
        = (M128.mk ((additional.size <<< 3) % 2 ^ 64) ((plaintext.size <<< 3) % 2 ^ 64)).xor
            (prim.AesEncrypt schedule (initialCounter prim iv)) := by
  refine ⟨_, sealed_blob_eq prim hash0 schedule plaintext additional iv hiv hsize, ?_, rfl⟩
  have htag : sealTag prim hash0 schedule plaintext additional iv
      = foldHash prim (hashSubkey prim schedule) hash0
          (blocksFrom additional 0 ((additional.size + 15) / 16)
            ++ sealFolded prim schedule plaintext iv
            ++ [sealSizes prim schedule plaintext additional iv]) := by
    unfold sealTag
    rw [sealBody_hash, foldHash_append _ _ _ _ [sealSizes prim schedule plaintext additional iv]]
    rfl
  rw [← htag]
  generalize (sealBody prim hash0 schedule plaintext additional iv).2.2.2.take
    (roundUp16 additional.size + roundUp16 plaintext.size) = pre
  have e : (pre ++ blockBytes (sealSizes prim schedule plaintext additional iv)
      ++ blockBytes (sealTag prim hash0 schedule plaintext additional iv)).length - 16
      = (pre ++ blockBytes (sealSizes prim schedule plaintext additional iv)).length := by
    simp [blockBytes_length]
  rw [e, List.drop_left]

theorem tag_is_final_accumulator_witness :
    sampleNonce.size = 12 ∧ samplePlaintext.size + emptyInput.size < 2 ^ 63 ∧
    ∃ blob, AesGcmEncrypt samplePrimitives ⟨0, 0⟩ () samplePlaintext emptyInput sampleNonce
        = Except.ok blob ∧
      blob.drop (blob.length - 16)
        = blockBytes (foldHash samplePrimitives (hashSubkey samplePrimitives ()) ⟨0, 0⟩
            (blocksFrom emptyInput 0 ((emptyInput.size + 15) / 16)
              ++ sealFolded samplePrimitives () samplePlaintext sampleNonce
              ++ [sealSizes samplePrimitives () samplePlaintext emptyInput sampleNonce])) ∧
      sealSizes samplePrimitives () samplePlaintext emptyInput sampleNonce
        = (M128.mk ((emptyInput.size <<< 3) % 2 ^ 64)
            ((samplePlaintext.size <<< 3) % 2 ^ 64)).xor
            (samplePrimitives.AesEncrypt () (initialCounter samplePrimitives sampleNonce)) :=
  ⟨by decide, by decide,
    tag_is_final_accumulator samplePrimitives ⟨0, 0⟩ () samplePlaintext emptyInput sampleNonce
      (by decide) (by decide)⟩

/-- The blocks of the data pass of `AesGcmEncrypt`: the `k`-th is
`load(plaintext, i + 16 k)` XOR `AesEncrypt` of the start counter incremented
`k + 1` times. -/
theorem sealDataTrace_blocks (prim : Primitives AesKeySchedule) (schedule : AesKeySchedule)
    (plaintext : Span) :
    ∀ fuel i ctr, plaintext.size ≤ i + 16 * fuel →
      (sealDataTrace prim schedule plaintext fuel i ctr).map Prod.snd
        = (List.range ((plaintext.size - i + 15) / 16)).map
            (fun k => (load plaintext (i + 16 * k)).xor
              (prim.AesEncrypt schedule (prim.inc^[k + 1] ctr))) := by
  intro fuel
  induction fuel with
  | zero =>
    intro i ctr h
    have : (plaintext.size - i + 15) / 16 = 0 := by omega
    simp [sealDataTrace, this]
  | succ fuel ih =>
    intro i ctr h
    unfold sealDataTrace
    by_cases hlt : i < plaintext.size
    · have hn : (plaintext.size - i + 15) / 16 = (plaintext.size - (i + 16) + 15) / 16 + 1 := by
        omega
      simp only [hlt, if_true, List.map_cons]
      rw [ih (i + 16) (prim.inc ctr) (by omega), hn, List.range_succ_eq_map,
        List.map_cons, List.map_map]
      congr 1
      apply List.map_congr_left
      intro k _
      show (load plaintext (i + 16 + 16 * k)).xor
          (prim.AesEncrypt schedule (prim.inc^[k + 1] (prim.inc ctr)))
        = (load plaintext (i + 16 * (k + 1))).xor
          (prim.AesEncrypt schedule (prim.inc^[k + 1 + 1] ctr))
      have e : i + 16 + 16 * k = i + 16 * (k + 1) := by omega
      rw [e, Function.iterate_succ_apply prim.inc (k + 1) ctr]
    · have : (plaintext.size - i + 15) / 16 = 0 := by omega
      simp [hlt, this]

theorem blockBytes_last (v : M128) : (blockBytes v)[15]? = some (v.d1 % 256) := by
  unfold blockBytes
  rw [List.getElem?_append_right (by rw [bytes64_length]; omega), bytes64_length]
  unfold bytes64
  rw [List.getElem?_map, List.getElem?_range (by omega)]
  rfl

/-- The sixteen bytes written for the last block of a plaintext whose length is
not a multiple of 16 end in a zero byte: they can be the bytes of a block `D` only
if the last byte of `D` is zero. -/
theorem sealed_last_block (prim : Primitives AesKeySchedule) (hash0 : M128)
    (schedule : AesKeySchedule) (plaintext additional iv : Span) (hiv : iv.size = 12)
    (hsize : plaintext.size + additional.size < 2 ^ 63) (hmod : plaintext.size % 16 ≠ 0) :
    ∃ blob, AesGcmEncrypt prim hash0 schedule plaintext additional iv = Except.ok blob ∧
      ∀ D : M128,
        (blob.drop (roundUp16 additional.size + 16 * (plaintext.size / 16))).take 16
          = blockBytes D → D.d1 % 256 = 0 := by
  obtain ⟨_, hlen⟩ := sealBody_spec prim hash0 schedule plaintext additional iv
  rw [sealedSize_eq _ _ hsize] at hlen
  refine ⟨_, sealed_blob_eq prim hash0 schedule plaintext additional iv hiv hsize, ?_⟩
  intro D heq
  have hr : roundUp16 plaintext.size = 16 * (plaintext.size / 16) + 16 := by
    unfold roundUp16
    omega
  have hz := sealBody_tail_zero prim hash0 schedule plaintext additional iv hsize hmod
    (roundUp16 additional.size + 16 * (plaintext.size / 16) + 15) (by omega) (by omega)
  have h15 := congrArg (fun l : List Nat => l[15]?) heq
  simp only at h15
  have hlt15 : 15 < 16 := by omega
  have hlt2 : roundUp16 additional.size + 16 * (plaintext.size / 16) + 15
      < roundUp16 additional.size + roundUp16 plaintext.size := by omega
  have hlt3 : roundUp16 additional.size + 16 * (plaintext.size / 16) + 15
      < ((sealBody prim hash0 schedule plaintext additional iv).2.2.2.take
          (roundUp16 additional.size + roundUp16 plaintext.size)).length := by
    rw [List.length_take]
    omega
  rw [blockBytes_last, List.getElem?_take_of_lt hlt15, List.getElem?_drop,
    List.append_assoc, List.getElem?_append_left hlt3,
    List.getElem?_take_of_lt hlt2, hz] at h15
  injection h15 with h15
  exact h15.symm

theorem sealFolded_last (prim : Primitives AesKeySchedule) (schedule : AesKeySchedule)
    (plaintext iv : Span) (hmod : plaintext.size % 16 ≠ 0) :
    (sealFolded prim schedule plaintext iv)[plaintext.size / 16]?
      = some ((load plaintext (16 * (plaintext.size / 16))).xor
          (prim.AesEncrypt schedule
            (prim.inc^[plaintext.size / 16 + 1] (initialCounter prim iv)))) := by
  have hlt : plaintext.size / 16 < (plaintext.size - 0 + 15) / 16 := by omega
  unfold sealFolded
  rw [sealDataTrace_blocks prim schedule plaintext plaintext.size 0 (initialCounter prim iv)
    (by omega), List.getElem?_map, List.getElem?_range hlt]
  simp only [Option.map_some', Nat.zero_add]

/-- C16 (the folded block is not the written block). With a 12-byte nonce, inputs of
fewer than `2 ^ 63` bytes together and a plaintext whose length is not a multiple of
16, the last block `D` that `AesGcmEncrypt` folds in its data pass is the whole
ciphertext block `load(plaintext, i) ^ AesEncrypt(schedule, ctr)`; the accumulator
before the length block is the fold of the associated-data blocks and of these
blocks; and whenever the last byte of `D` is not zero, the sixteen bytes written to
the blob for that block, whose tail is zeroed, are not the bytes of `D`. -/
theorem folded_block_not_written (prim : Primitives AesKeySchedule) (hash0 : M128)
    (schedule : AesKeySchedule) (plaintext additional iv : Span) (hiv : iv.size = 12)
    (hsize : plaintext.size + additional.size < 2 ^ 63) (hmod : plaintext.size % 16 ≠ 0)
    (hlast : ((load plaintext (16 * (plaintext.size / 16))).xor
      (prim.AesEncrypt schedule
        (prim.inc^[plaintext.size / 16 + 1] (initialCounter prim iv)))).d1 % 256 ≠ 0) :
    (sealFolded prim schedule plaintext iv)[plaintext.size / 16]?
      = some ((load plaintext (16 * (plaintext.size / 16))).xor
          (prim.AesEncrypt schedule
            (prim.inc^[plaintext.size / 16 + 1] (initialCounter prim iv)))) ∧
    (sealBody prim hash0 schedule plaintext additional iv).2.2.1
      = foldHash prim (hashSubkey prim schedule) hash0
          (blocksFrom additional 0 ((additional.size + 15) / 16)
            ++ sealFolded prim schedule plaintext iv) ∧
    ∃ blob, AesGcmEncrypt prim hash0 schedule plaintext additional iv = Except.ok blob ∧
      (blob.drop (roundUp16 additional.size + 16 * (plaintext.size / 16))).take 16
        ≠ blockBytes ((load plaintext (16 * (plaintext.size / 16))).xor
            (prim.AesEncrypt schedule
              (prim.inc^[plaintext.size / 16 + 1] (initialCounter prim iv)))) := by
  obtain ⟨blob, hblob, hD⟩ :=
    sealed_last_block prim hash0 schedule plaintext additional iv hiv hsize hmod
  exact ⟨sealFolded_last prim schedule plaintext iv hmod,
    sealBody_hash prim hash0 schedule plaintext additional iv,
    blob, hblob, fun heq => hlast (hD _ heq)⟩

theorem folded_block_not_written_witness :
    sampleNonce.size = 12 ∧ longPlaintext.size + emptyInput.size < 2 ^ 63 ∧
    longPlaintext.size % 16 ≠ 0 ∧
    AesGcmEncrypt samplePrimitives ⟨0, 0⟩ () longPlaintext emptyInput sampleNonce
      = Except.ok sealedLong ∧
    sealFolded samplePrimitives () longPlaintext sampleNonce
      = [⟨0x5A6D7C0F, 0x4B5A6D7E⟩, ⟨0x5A2C3D4E, 0x0A1B2C3E⟩] ∧
    blocksFrom (spanOf sealedLong) 0 2
      = [⟨0x5A6D7C0F, 0x4B5A6D7E⟩, ⟨0, 0⟩] ∧
    (sealBody samplePrimitives ⟨0, 0⟩ () longPlaintext emptyInput sampleNonce).2.2.1
      ≠ foldHash samplePrimitives (hashSubkey samplePrimitives ()) ⟨0, 0⟩
          (blocksFrom (spanOf sealedLong) 0 2) ∧
    ∃ blob, AesGcmEncrypt samplePrimitives ⟨0, 0⟩ () longPlaintext emptyInput sampleNonce
        = Except.ok blob ∧
      (blob.drop (roundUp16 emptyInput.size + 16 * (longPlaintext.size / 16))).take 16
        ≠ blockBytes ((load longPlaintext (16 * (longPlaintext.size / 16))).xor
            (samplePrimitives.AesEncrypt ()
              (samplePrimitives.inc^[longPlaintext.size / 16 + 1]
                (initialCounter samplePrimitives sampleNonce)))) :=
  ⟨by decide, by decide, by decide, sealedLong_eq, by decide, by decide, by decide,
    (folded_block_not_written samplePrimitives ⟨0, 0⟩ () longPlaintext emptyInput sampleNonce
      (by decide) (by decide) (by decide) (by decide)).2.2⟩

end FoldClaims

section LoopCounterClaims

variable {AesKeySchedule : Type}

end LoopCounterClaims

end Occlude.Crypto
